import Mathlib

/-!
Verification of the asyncio-cache repository (asyncio_cache/asyncio_cache.py).

The development shallowly embeds the source:

* Python values are modelled by an inductive `PyVal` whose structural equality
  stands for Python value equality; runtime types by `PyType`.
* The key canonicalizer `_make_key` (source lines 34-62) becomes `make_key`;
  the `_HashedSeq` wrapper (lines 13-31) becomes the constructor `Key.seq`
  carrying the hash value computed at construction; a bare fast-typed argument
  becomes `Key.fast`.
* Python dicts are modelled as insertion-ordered association lists with
  lookup / replace-or-append insert / delete (`dlookup`, `dinsert`, `derase`).
* The mutable circular doubly linked list of `_lru_cache_wrapper` becomes an
  arena: a function from abstract heap addresses (naturals) to `Node` records,
  updated pointwise exactly where the source assigns a link field, together
  with an allocation bound `alen` (fresh addresses model fresh Python lists).
* The bounded wrapper's pre-suspension part (lines 148-161) is `accessPhase`,
  its post-await part (lines 163-197) is `resumePhase`; a cooperative schedule
  of any number of concurrent calls is a list of `Op` steps, since the only
  suspension point sits between the two phases.
-/

namespace AsyncioCache

/-- Runtime type of a Python value. -/
inductive PyType where
  | int
  | str
  | other (n : Nat)
deriving DecidableEq

/-- Model of a Python value: an integer, a text string, or an object of some
other type identified by a type tag and an object identity.  Structural
equality of `PyVal` models Python value equality. -/
inductive PyVal where
  | vint (n : Int)
  | vstr (s : String)
  | vobj (t : Nat) (id : Nat)
deriving DecidableEq

/-- Runtime type of a value, as used by the fast-path check in the source
(line 60, the membership test in fast_types). -/
def pyType : PyVal → PyType
  | .vint _ => .int
  | .vstr _ => .str
  | .vobj t _ => .other t

/-- Model of the Python hash of a value.  Its exact behaviour is opaque to the
cache; any fixed computable function is a faithful model. -/
def pyHash : PyVal → Nat
  | .vint n => 2 * n.natAbs + (if n < 0 then 1 else 0)
  | .vstr s => s.toList.foldl (fun h c => h * 131 + c.toNat) 7
  | .vobj t i => (t + 1) * 1000003 + i

/-- One element of the flat key tuple built by make_key: an argument value, a
keyword-name value, the unique keyword marker object (kwd_mark, line 34), or a
runtime type (appended in typed mode, lines 56-59). -/
inductive KeyElem where
  | val (v : PyVal)
  | mark
  | ty (t : PyType)
deriving DecidableEq

/-- Model of the hash of one key-tuple element. -/
def elemCode : KeyElem → Nat
  | .val v => 2 * pyHash v
  | .mark => 1
  | .ty .int => 3
  | .ty .str => 5
  | .ty (.other n) => 7 + 2 * n

/-- Model of the Python tuple hash used by _HashedSeq at construction
(line 25, hash(tup)). -/
def hashElems (l : List KeyElem) : Nat :=
  l.foldl (fun h e => h * 31 + elemCode e) 11

/-- A cache key as produced by make_key: either a bare fast-typed single
argument returned without a wrapper (line 61), or the flat element sequence
wrapped in a _HashedSeq (line 62), which stores the hash computed once at
construction (line 25). -/
inductive Key where
  | fast (v : PyVal)
  | seq (elems : List KeyElem) (hash_value : Nat)
deriving DecidableEq

/-- Model of hash() applied to a key.  On a wrapped key it returns the stored
hash_value field (source lines 27-28) and performs no recomputation. -/
def keyHash : Key → Nat
  | .fast v => pyHash v
  | .seq _ h => h

/-- The DEFAULT_FAST_TYPES set of the source (line 10). -/
def DEFAULT_FAST_TYPES : List PyType := [PyType.int, PyType.str]

/-- The flat name, value alternation contributed by the keyword arguments
(source lines 54-55: each dict item extends the key tuple by two elements). -/
def kwdFlatVals (kwds : List (String × PyVal)) : List PyVal :=
  kwds.flatMap (fun p => [PyVal.vstr p.1, p.2])

/-- The key canonicalizer _make_key (source lines 34-62).  Keyword arguments
are an insertion-ordered list of name, value pairs, as Python dicts preserve
the order input by the user (comment at lines 45-48). -/
def make_key (args : List PyVal) (kwds : List (String × PyVal)) (typed : Bool) :
    Key :=
  let key : List KeyElem := args.map KeyElem.val
  let key := if kwds.isEmpty then key
             else key ++ KeyElem.mark :: (kwdFlatVals kwds).map KeyElem.val
  if typed then
    let key := key ++ args.map (fun v => KeyElem.ty (pyType v))
    let key := if kwds.isEmpty then key
               else key ++ kwds.map (fun p => KeyElem.ty (pyType p.2))
    Key.seq key (hashElems key)
  else
    match key with
    | [KeyElem.val v] =>
        if pyType v ∈ DEFAULT_FAST_TYPES then Key.fast v
        else Key.seq [KeyElem.val v] (hashElems [KeyElem.val v])
    | k => Key.seq k (hashElems k)

/-! ### Association-list model of Python dicts

Python dicts preserve insertion order; assignment to an existing key replaces
the value in place, assignment to a fresh key appends, and del removes the
unique entry for a key. -/

section Dict

variable {α β : Type} [DecidableEq α]

/-- dict.get: the value stored for a key, if any. -/
def dlookup : List (α × β) → α → Option β
  | [], _ => none
  | (k, v) :: t, x => if x = k then some v else dlookup t x

/-- dict assignment: replace in place if the key is present, append if not. -/
def dinsert : List (α × β) → α → β → List (α × β)
  | [], x, y => [(x, y)]
  | (k, v) :: t, x, y => if x = k then (k, y) :: t else (k, v) :: dinsert t x y

/-- del dict entry: remove the first (with unique keys, the only) entry. -/
def derase : List (α × β) → α → List (α × β)
  | [], _ => []
  | (k, v) :: t, x => if x = k then t else (k, v) :: derase t x

theorem dlookup_eq_none_iff (c : List (α × β)) (x : α) :
    dlookup c x = none ↔ x ∉ c.map Prod.fst := by
  induction c with
  | nil => simp [dlookup]
  | cons p t ih =>
      obtain ⟨k, v⟩ := p
      by_cases h : x = k <;> simp [dlookup, h, ih]

theorem mem_of_dlookup_eq_some {c : List (α × β)} {x : α} {y : β}
    (h : dlookup c x = some y) : (x, y) ∈ c := by
  induction c with
  | nil => simp [dlookup] at h
  | cons p t ih =>
      obtain ⟨k, v⟩ := p
      by_cases hx : x = k
      · subst hx
        simp [dlookup] at h
        simp [h]
      · simp [dlookup, hx] at h
        exact List.mem_cons_of_mem _ (ih h)

theorem dinsert_eq_append (c : List (α × β)) (x : α) (y : β)
    (h : x ∉ c.map Prod.fst) : dinsert c x y = c ++ [(x, y)] := by
  induction c with
  | nil => simp [dinsert]
  | cons p t ih =>
      obtain ⟨k, v⟩ := p
      simp only [List.map_cons, List.mem_cons] at h
      push_neg at h
      simp [dinsert, h.1, ih h.2]

theorem derase_perm {c : List (α × β)} {x : α} {y : β}
    (hnd : (c.map Prod.fst).Nodup) (hmem : (x, y) ∈ c) :
    c.Perm ((x, y) :: derase c x) := by
  induction c with
  | nil => simp at hmem
  | cons p t ih =>
      obtain ⟨k, v⟩ := p
      simp only [List.map_cons, List.nodup_cons] at hnd
      rcases List.mem_cons.mp hmem with h | h
      · have hk : x = k := congrArg Prod.fst h
        have hv : y = v := congrArg Prod.snd h
        subst hk; subst hv
        simp [derase]
      · have hx : x ≠ k := by
          rintro rfl
          exact hnd.1 (List.mem_map_of_mem Prod.fst h)
        have h1 : ((k, v) :: t).Perm ((k, v) :: (x, y) :: derase t x) :=
          (ih hnd.2 h).cons _
        have hder : derase ((k, v) :: t) x = (k, v) :: derase t x := by
          simp [derase, hx]
        rw [hder]
        exact h1.trans (List.Perm.swap _ _ _)

end Dict

/-! ### The bounded LRU engine (source lines 111-213)

A link `[link_prev, link_next, key, result]` (source line 114) becomes a
`Node` record; the mutable Python list objects become addresses into an
arena function, updated pointwise exactly where the source assigns a field. -/

/-- One link of the circular doubly linked list (source line 114): the fields
prev, next (addresses of neighbouring links), key and result.  The sentinel
root link holds no key and no result (line 120), hence the Option fields. -/
structure Node where
  prev : Nat
  next : Nat
  key : Option Key
  result : Option PyVal
deriving DecidableEq

/-- The heap of link objects, addressed by naturals. -/
abbrev Arena := Nat → Node

/-- Assignment to the link_next_field of the link at address i. -/
def setNext (a : Arena) (i x : Nat) : Arena :=
  Function.update a i { a i with next := x }

/-- Assignment to the link_prev_field of the link at address i. -/
def setPrev (a : Arena) (i x : Nat) : Arena :=
  Function.update a i { a i with prev := x }

/-- Assignment to the link_key_field of the link at address i. -/
def setKey (a : Arena) (i : Nat) (k : Option Key) : Arena :=
  Function.update a i { a i with key := k }

/-- Assignment to the link_result_field of the link at address i. -/
def setResult (a : Arena) (i : Nat) (r : Option PyVal) : Arena :=
  Function.update a i { a i with result := r }

theorem setNext_apply (a : Arena) (i x j : Nat) :
    setNext a i x j = if j = i then { a i with next := x } else a j := by
  simp [setNext, Function.update]

theorem setPrev_apply (a : Arena) (i x j : Nat) :
    setPrev a i x j = if j = i then { a i with prev := x } else a j := by
  simp [setPrev, Function.update]

theorem setKey_apply (a : Arena) (i : Nat) (k : Option Key) (j : Nat) :
    setKey a i k j = if j = i then { a i with key := k } else a j := by
  simp [setKey, Function.update]

theorem setResult_apply (a : Arena) (i : Nat) (r : Option PyVal)
    (j : Nat) :
    setResult a i r j = if j = i then { a i with result := r } else a j := by
  simp [setResult, Function.update]

@[simp] theorem prev_setNext (a : Arena) (i x j : Nat) :
    (setNext a i x j).prev = (a j).prev := by
  by_cases h : j = i <;>
    simp [h, setNext, setPrev, setKey, setResult, Function.update]

@[simp] theorem key_setNext (a : Arena) (i x j : Nat) :
    (setNext a i x j).key = (a j).key := by
  by_cases h : j = i <;>
    simp [h, setNext, setPrev, setKey, setResult, Function.update]

@[simp] theorem result_setNext (a : Arena) (i x j : Nat) :
    (setNext a i x j).result = (a j).result := by
  by_cases h : j = i <;>
    simp [h, setNext, setPrev, setKey, setResult, Function.update]

@[simp] theorem next_setNext (a : Arena) (i x j : Nat) :
    (setNext a i x j).next = if j = i then x else (a j).next := by
  by_cases h : j = i <;>
    simp [h, setNext, setPrev, setKey, setResult, Function.update]

@[simp] theorem next_setPrev (a : Arena) (i x j : Nat) :
    (setPrev a i x j).next = (a j).next := by
  by_cases h : j = i <;>
    simp [h, setNext, setPrev, setKey, setResult, Function.update]

@[simp] theorem key_setPrev (a : Arena) (i x j : Nat) :
    (setPrev a i x j).key = (a j).key := by
  by_cases h : j = i <;>
    simp [h, setNext, setPrev, setKey, setResult, Function.update]

@[simp] theorem result_setPrev (a : Arena) (i x j : Nat) :
    (setPrev a i x j).result = (a j).result := by
  by_cases h : j = i <;>
    simp [h, setNext, setPrev, setKey, setResult, Function.update]

@[simp] theorem prev_setPrev (a : Arena) (i x j : Nat) :
    (setPrev a i x j).prev = if j = i then x else (a j).prev := by
  by_cases h : j = i <;>
    simp [h, setNext, setPrev, setKey, setResult, Function.update]

@[simp] theorem next_setKey (a : Arena) (i : Nat) (k : Option Key) (j : Nat) :
    (setKey a i k j).next = (a j).next := by
  by_cases h : j = i <;>
    simp [h, setNext, setPrev, setKey, setResult, Function.update]

@[simp] theorem prev_setKey (a : Arena) (i : Nat) (k : Option Key) (j : Nat) :
    (setKey a i k j).prev = (a j).prev := by
  by_cases h : j = i <;>
    simp [h, setNext, setPrev, setKey, setResult, Function.update]

@[simp] theorem result_setKey (a : Arena) (i : Nat) (k : Option Key) (j : Nat) :
    (setKey a i k j).result = (a j).result := by
  by_cases h : j = i <;>
    simp [h, setNext, setPrev, setKey, setResult, Function.update]

@[simp] theorem key_setKey (a : Arena) (i : Nat) (k : Option Key) (j : Nat) :
    (setKey a i k j).key = if j = i then k else (a j).key := by
  by_cases h : j = i <;>
    simp [h, setNext, setPrev, setKey, setResult, Function.update]

@[simp] theorem next_setResult (a : Arena) (i : Nat) (r : Option PyVal)
    (j : Nat) : (setResult a i r j).next = (a j).next := by
  by_cases h : j = i <;>
    simp [h, setNext, setPrev, setKey, setResult, Function.update]

@[simp] theorem prev_setResult (a : Arena) (i : Nat) (r : Option PyVal)
    (j : Nat) : (setResult a i r j).prev = (a j).prev := by
  by_cases h : j = i <;>
    simp [h, setNext, setPrev, setKey, setResult, Function.update]

@[simp] theorem key_setResult (a : Arena) (i : Nat) (r : Option PyVal)
    (j : Nat) : (setResult a i r j).key = (a j).key := by
  by_cases h : j = i <;>
    simp [h, setNext, setPrev, setKey, setResult, Function.update]

@[simp] theorem result_setResult (a : Arena) (i : Nat) (r : Option PyVal)
    (j : Nat) :
    (setResult a i r j).result = if j = i then r else (a j).result := by
  by_cases h : j = i <;>
    simp [h, setNext, setPrev, setKey, setResult, Function.update]

/-- The mutable state captured by the closure of _lru_cache_wrapper
(source lines 116-120): the key to link index local_cache, the hit and miss
counters, the full flag, the address of the root sentinel, plus the arena of
link objects with its allocation bound and the configured maxsize. -/
structure LRU where
  arena : Arena
  alen : Nat
  root : Nat
  cache : List (Key × Nat)
  hits : Nat
  misses : Nat
  full : Bool
  maxsize : Nat

/-- The state right after _lru_cache_wrapper initialises its closure
(lines 116-120): empty index, zero counters, not full, and a root link
pointing to itself. -/
def initLRU (maxsize : Nat) : LRU where
  arena := fun _ => ⟨0, 0, none, none⟩
  alen := 1
  root := 0
  cache := []
  hits := 0
  misses := 0
  full := false
  maxsize := maxsize

/-- The hit path of the bounded wrapper (source lines 151-158): unlink the
found link from its position and relink it immediately before root.  Each
let mirrors one assignment of the source, in source order. -/
def promote (s : LRU) (i : Nat) : LRU :=
  let p := (s.arena i).prev
  let n := (s.arena i).next
  let a1 := setNext s.arena p n
  let a2 := setPrev a1 n p
  let last := (a2 s.root).prev
  let a3 := setNext a2 last i
  let a4 := setPrev a3 s.root i
  let a5 := setPrev a4 i last
  let a6 := setNext a5 i s.root
  { s with arena := a6 }

/-- The pre-suspension part of the bounded wrapper (source lines 148-161):
look the key up; on a hit promote the link and count a hit, returning the
stored result; on a miss count a miss.  The returned first component is
some stored result on a hit and none on a miss (after which the wrapper
awaits the user function: the sole suspension point). -/
def accessPhase (s : LRU) (k : Key) : Option (Option PyVal) × LRU :=
  match dlookup s.cache k with
  | some i => (some ((s.arena i).result), { promote s i with hits := s.hits + 1 })
  | none => (none, { s with misses := s.misses + 1 })

/-- The post-await part of the bounded wrapper (source lines 163-197), run on
resumption with the computed result: if the key was inserted by a racing call
while suspended, do nothing (line 168); else if full, reuse the oldest link
in place and rotate the root (lines 169-188); else append a fresh link in
front of root (lines 189-196). -/
def resumePhase (s : LRU) (k : Key) (v : PyVal) : LRU :=
  if (dlookup s.cache k).isSome then
    s
  else if s.full then
    let old_root := s.root
    let a1 := setKey s.arena old_root (some k)
    let a2 := setResult a1 old_root (some v)
    let root' := (a2 old_root).next
    let old_key := (a2 root').key
    let a3 := setKey a2 root' none
    let a4 := setResult a3 root' none
    let cache1 := match old_key with
      | some ok => derase s.cache ok
      | none => s.cache
    let cache2 := dinsert cache1 k old_root
    { s with arena := a4, root := root', cache := cache2 }
  else
    let last := (s.arena s.root).prev
    let i := s.alen
    let a1 := Function.update s.arena i ⟨last, s.root, some k, some v⟩
    let a2 := setNext a1 last i
    let a3 := setPrev a2 s.root i
    let cache' := dinsert s.cache k i
    { s with arena := a3, alen := i + 1, cache := cache',
             full := decide (s.maxsize ≤ cache'.length) }

/-- The CacheInfo named tuple (source line 9). -/
structure CacheInfo where
  hits : Nat
  misses : Nat
  maxsize : Option Nat
  currsize : Nat
deriving DecidableEq

/-- cache_info for the bounded wrapper (source lines 199-201). -/
def cache_info (s : LRU) : CacheInfo :=
  ⟨s.hits, s.misses, some s.maxsize, s.cache.length⟩

/-- cache_clear (source lines 203-209): empty the index, reset the current
root link to point to itself with no key and no result, zero the counters,
reset the full flag. -/
def cache_clear (s : LRU) : LRU :=
  { s with cache := [],
           arena := Function.update s.arena s.root ⟨s.root, s.root, none, none⟩,
           hits := 0, misses := 0, full := false }

/-- One atomic (suspension-free) slice of work on a shared bounded cache:
the pre-suspension part of a call, the post-await part of a call, or a
cache_clear.  Any cooperative interleaving of concurrent calls is a list of
such slices, because the await of the user function (line 162) is the only
suspension point. -/
inductive Op where
  | access (k : Key)
  | resume (k : Key) (v : PyVal)
  | clear

/-- Execute one atomic slice. -/
def step (s : LRU) : Op → LRU
  | .access k => (accessPhase s k).2
  | .resume k v => resumePhase s k v
  | .clear => cache_clear s

/-- Execute a schedule of atomic slices. -/
def run (s : LRU) (ops : List Op) : LRU :=
  ops.foldl step s

/-- One complete bounded-wrapper call that runs without interference: its
pre-suspension part, then, on a miss, its post-await part with the computed
value v. -/
def doCall (s : LRU) (k : Key) (v : PyVal) : LRU :=
  match accessPhase s k with
  | (some _, s1) => s1
  | (none, s1) => resumePhase s1 k v

/-- The hit/miss outcome of each call of a race-free call sequence: true for
a hit, false for a miss, in call order. -/
def callsTrace (s : LRU) : List (Key × PyVal) → List Bool
  | [] => []
  | (k, v) :: rest => (dlookup s.cache k).isSome :: callsTrace (doCall s k v) rest

/-- The state of a race-free call sequence. -/
def runCalls (s : LRU) : List (Key × PyVal) → LRU
  | [] => s
  | (k, v) :: rest => runCalls (doCall s k v) rest

/-- One complete bounded call whose external computation may fail, run
without interference (source lines 145-197).  On a hit the stored result is
returned (resident links always hold a result; getD only eliminates the
Option used for the value-free sentinel).  On a miss a failing computation
propagates its error after the miss was counted; a successful one runs the
post-await insertion logic. -/
def callB {E : Type} (s : LRU) (k : Key) (comp : Except E PyVal) :
    Except E PyVal × LRU :=
  match accessPhase s k with
  | (some r, s1) => (.ok (r.getD (PyVal.vint 0)), s1)
  | (none, s1) =>
      match comp with
      | .ok v => (.ok v, resumePhase s1 k v)
      | .error e => (.error e, s1)

/-! ### The unbounded strategy (source lines 130-142) and the disabled
strategy (source lines 122-128) -/

/-- Closure state of the unbounded wrapper: the plain key to value dict and
the counters. -/
structure UState where
  cache : List (Key × PyVal)
  hits : Nat
  misses : Nat
deriving DecidableEq

/-- The pre-suspension part of the unbounded wrapper (lines 134-139):
local_cache.get with the sentinel default, hit count and return on presence,
miss count on absence. -/
def accessU (s : UState) (k : Key) : Option PyVal × UState :=
  match dlookup s.cache k with
  | some r => (some r, { s with hits := s.hits + 1 })
  | none => (none, { s with misses := s.misses + 1 })

/-- The post-await part of the unbounded wrapper (line 141): unconditional
dict assignment of the freshly computed result, with no re-check of the
key's absence. -/
def resumeU (s : UState) (k : Key) (v : PyVal) : UState :=
  { s with cache := dinsert s.cache k v }

/-- One complete unbounded call without interference (lines 131-142). -/
def callU {E : Type} (s : UState) (k : Key) (comp : Except E PyVal) :
    Except E PyVal × UState :=
  match accessU s k with
  | (some r, s1) => (.ok r, s1)
  | (none, s1) =>
      match comp with
      | .ok v => (.ok v, resumeU s1 k v)
      | .error e => (.error e, s1)

/-- cache_info for the unbounded wrapper. -/
def cache_infoU (s : UState) : CacheInfo :=
  ⟨s.hits, s.misses, none, s.cache.length⟩

/-- Closure state of the maxsize zero wrapper: only the counters matter
(lines 122-128); its local_cache stays empty forever. -/
structure ZState where
  hits : Nat
  misses : Nat
deriving DecidableEq

/-- One call of the maxsize zero wrapper (lines 123-128): count a miss, then
return whatever the computation produced. -/
def call0 {E : Type} (s : ZState) (comp : Except E PyVal) :
    Except E PyVal × ZState :=
  (comp, { s with misses := s.misses + 1 })

/-! ### Step-by-step trace of the evict-and-reuse branch (lines 171-188)

Used to examine the ordering of the branch's mutations against the moment
the cache drops its last reference to the evicted result. -/

/-- The successive cache states of the evict-and-reuse branch, one per
mutating source line, in source order: after line 172 (new key written into
the old root), line 173 (new result written into the old root), line 180
(root moved to the oldest link), line 182 (the oldest link's key and result
fields cleared: here the cache structure drops its reference to the evicted
result, while only the evicted key is also retained by the local old_key,
line 181), line 184 (index entry of the evicted key deleted), and line 188
(index entry for the new key inserted). -/
def evictStates (s : LRU) (k : Key) (v : PyVal) : List LRU :=
  let s1 := { s with arena := setKey s.arena s.root (some k) }
  let s2 := { s1 with arena := setResult s1.arena s.root (some v) }
  let s3 := { s2 with root := (s2.arena s.root).next }
  let old_key := (s3.arena s3.root).key
  let s4 := { s3 with arena := setResult (setKey s3.arena s3.root none) s3.root none }
  let s5 := { s4 with cache := match old_key with
                | some ok => derase s4.cache ok
                | none => s4.cache }
  let s6 := { s5 with cache := dinsert s5.cache k s.root }
  [s1, s2, s3, s4, s5, s6]

/-- How many links of the cache structure still reference a given result
value: the number of allocated arena slots whose result field holds it.
When this drops to zero the cache holds no reference left and, absent outside
holders, the value's finalizer may run. -/
def valueRefs (s : LRU) (v : PyVal) : Nat :=
  ((List.range s.alen).filter (fun j => (s.arena j).result = some v)).length

/-! ### Ring paths

The structural description of the circular doubly linked list: two links are
joined when the next pointer of the first and the prev pointer of the second
point at each other, and a path threads a list of links between two ends. -/

/-- Links x and y are adjacent in the ring: the next field of x addresses y
and the prev field of y addresses x. -/
def Linked (a : Arena) (x y : Nat) : Prop :=
  (a x).next = y ∧ (a y).prev = x

instance instDecidableLinked (a : Arena) (x y : Nat) :
    Decidable (Linked a x y) :=
  inferInstanceAs (Decidable (_ ∧ _))

/-- Following next pointers from x leads through exactly the links of l and
then reaches y, with all matching prev pointers along the way. -/
def Path (a : Arena) : Nat → List Nat → Nat → Prop
  | x, [], y => Linked a x y
  | x, z :: l, y => Linked a x z ∧ Path a z l y

instance instDecidablePath (a : Arena) :
    (x : Nat) → (l : List Nat) → (y : Nat) → Decidable (Path a x l y)
  | x, [], y => inferInstanceAs (Decidable (Linked a x y))
  | x, z :: l, y =>
      haveI := instDecidablePath a z l y
      inferInstanceAs (Decidable (Linked a x z ∧ Path a z l y))

/-- The last element of a list, or the default when the list is empty. -/
def lastD (l : List Nat) (d : Nat) : Nat :=
  match l with
  | [] => d
  | z :: t => lastD t z

/-- The head of a list, or the default when the list is empty. -/
def hdD (l : List Nat) (d : Nat) : Nat :=
  match l with
  | [] => d
  | z :: _ => z

theorem lastD_cons (z d : Nat) (t : List Nat) :
    lastD (z :: t) d = lastD t z := rfl

/-- The element picked by lastD is the default consed onto the list or a
member of the list. -/
theorem lastD_mem_cons (l : List Nat) (d : Nat) : lastD l d ∈ d :: l := by
  induction l generalizing d with
  | nil => simp [lastD]
  | cons z t ih =>
      rw [lastD_cons]
      rcases List.mem_cons.mp (ih z) with h | h
      · simp [h]
      · simp [List.mem_cons_of_mem, h]

/-- The element picked by hdD is the default or a member of the list. -/
theorem hdD_mem_cons (l : List Nat) (d : Nat) : hdD l d ∈ d :: l := by
  cases l <;> simp [hdD]

/-- lastD through an append with a nonempty-by-construction right part. -/
theorem lastD_append_cons (l₁ l₂ : List Nat) (x d : Nat) :
    lastD (l₁ ++ x :: l₂) d = lastD l₂ x := by
  induction l₁ generalizing d with
  | nil => rw [List.nil_append, lastD_cons]
  | cons w t ih => rw [List.cons_append, lastD_cons, ih]

theorem path_append_iff (a : Arena) (x y z : Nat) (l₁ l₂ : List Nat) :
    Path a x (l₁ ++ z :: l₂) y ↔ Path a x l₁ z ∧ Path a z l₂ y := by
  induction l₁ generalizing x with
  | nil => simp [Path]
  | cons w t ih => simp [Path, ih, and_assoc]

theorem path_snoc_iff (a : Arena) (x y z : Nat) (l : List Nat) :
    Path a x (l ++ [z]) y ↔ Path a x l z ∧ Linked a z y := by
  simpa [Path] using path_append_iff a x y z l []

theorem path_concat {a : Arena} {x y z : Nat} {l₁ l₂ : List Nat}
    (h1 : Path a x l₁ z) (h2 : Path a z l₂ y) :
    Path a x (l₁ ++ z :: l₂) y :=
  (path_append_iff a x y z l₁ l₂).mpr ⟨h1, h2⟩

theorem path_head_next {a : Arena} {x y : Nat} {l : List Nat}
    (h : Path a x l y) : (a x).next = hdD l y := by
  cases l with
  | nil => exact h.1
  | cons z t => exact h.1.1

theorem path_head_prev {a : Arena} {x y : Nat} {l : List Nat}
    (h : Path a x l y) : (a (hdD l y)).prev = x := by
  cases l with
  | nil => exact h.2
  | cons z t => exact h.1.2

theorem path_last_prev {a : Arena} {x y : Nat} {l : List Nat}
    (h : Path a x l y) : (a y).prev = lastD l x := by
  induction l generalizing x with
  | nil => exact h.2
  | cons z t ih => rw [lastD_cons]; exact ih h.2

theorem path_last_next {a : Arena} {x y : Nat} {l : List Nat}
    (h : Path a x l y) : (a (lastD l x)).next = y := by
  induction l generalizing x with
  | nil => exact h.1
  | cons z t ih => rw [lastD_cons]; exact ih h.2

theorem path_congr {a a2 : Arena} {x y : Nat} {l : List Nat}
    (hn : ∀ z ∈ x :: l, (a2 z).next = (a z).next)
    (hp : ∀ z ∈ l ++ [y], (a2 z).prev = (a z).prev)
    (h : Path a x l y) : Path a2 x l y := by
  induction l generalizing x with
  | nil =>
      exact ⟨(hn x (by simp)).trans h.1, (hp y (by simp)).trans h.2⟩
  | cons z t ih =>
      refine ⟨⟨(hn x (by simp)).trans h.1.1, (hp z (by simp)).trans h.1.2⟩, ?_⟩
      exact ih (fun w hw => hn w (by simp at hw ⊢; tauto))
        (fun w hw => hp w (by simp at hw ⊢; tauto)) h.2


theorem path_retarget {a a2 : Arena} {x y y' : Nat} {l : List Nat}
    (hnd : (x :: l).Nodup) (hy : y' ∉ x :: l)
    (hn : ∀ z ∈ x :: l, z ≠ lastD l x → (a2 z).next = (a z).next)
    (hlast : (a2 (lastD l x)).next = y')
    (hp : ∀ z ∈ l, (a2 z).prev = (a z).prev)
    (hpy : (a2 y').prev = lastD l x)
    (h : Path a x l y) : Path a2 x l y' := by
  induction l generalizing x with
  | nil => exact ⟨hlast, hpy⟩
  | cons z t ih =>
      have hm : lastD (z :: t) x = lastD t z := lastD_cons z x t
      have hmem : lastD t z ∈ z :: t := lastD_mem_cons t z
      have hxm : x ≠ lastD t z := by
        intro hx
        exact (List.nodup_cons.mp hnd).1 (hx ▸ hmem)
      refine ⟨⟨?_, ?_⟩, ?_⟩
      · exact (hn x (by simp) (by rw [hm]; exact hxm)).trans h.1.1
      · exact (hp z (by simp)).trans h.1.2
      · exact ih (List.nodup_cons.mp hnd).2
          (fun hz => hy (List.mem_cons_of_mem _ hz))
          (fun w hw hwm => hn w (List.mem_cons_of_mem _ hw) (by rw [hm]; exact hwm))
          (by rw [hm] at hlast; exact hlast)
          (fun w hw => hp w (List.mem_cons_of_mem _ hw))
          (by rw [hm] at hpy; exact hpy) h.2

/-! ### The structural invariant of the bounded cache -/

/-- The central structural invariant of the bounded cache, for a given list l
of link addresses in ring order from oldest (immediately after root) to most
recently used (immediately before root): following next pointers from root
passes exactly through l and returns to root with matching prev pointers; the
addresses of root and l are pairwise distinct allocated links; root holds no
key; and the index local_cache agrees with the ring: its addresses are a
permutation of l, its keys are distinct, and each indexed link stores the key
it is indexed under. -/
def RingRep (s : LRU) (l : List Nat) : Prop :=
  Path s.arena s.root l s.root ∧
  (s.root :: l).Nodup ∧
  (∀ i ∈ s.root :: l, i < s.alen) ∧
  (s.arena s.root).key = none ∧
  (s.cache.map Prod.snd).Perm l ∧
  (s.cache.map Prod.fst).Nodup ∧
  (∀ p ∈ s.cache, (s.arena p.2).key = some p.1)

/-- The full invariant of a bounded cache state: some ring order list
witnesses the structural invariant, the index never holds more entries than
maxsize, the full flag is exactly the comparison computed at insertion time
(line 196), and the bounded strategy only exists for positive maxsize. -/
def Inv (s : LRU) : Prop :=
  (∃ l, RingRep s l) ∧
  s.cache.length ≤ s.maxsize ∧
  s.full = decide (s.maxsize ≤ s.cache.length) ∧
  0 < s.maxsize

theorem promote_key (s : LRU) (i j : Nat) :
    ((promote s i).arena j).key = (s.arena j).key := by
  simp [promote]

theorem promote_result (s : LRU) (i j : Nat) :
    ((promote s i).arena j).result = (s.arena j).result := by
  simp [promote]

theorem promote_next (s : LRU) (i j : Nat) :
    ((promote s i).arena j).next =
      if j = i then s.root
      else if j = (if s.root = (s.arena i).next then (s.arena i).prev
                   else (s.arena s.root).prev) then i
      else if j = (s.arena i).prev then (s.arena i).next
      else (s.arena j).next := by
  simp [promote]

theorem promote_prev (s : LRU) (i j : Nat) :
    ((promote s i).arena j).prev =
      if j = i then (if s.root = (s.arena i).next then (s.arena i).prev
                     else (s.arena s.root).prev)
      else if j = s.root then i
      else if j = (s.arena i).next then (s.arena i).prev
      else (s.arena j).prev := by
  simp [promote]

@[simp] theorem promote_root (s : LRU) (i : Nat) : (promote s i).root = s.root := rfl

@[simp] theorem promote_cache (s : LRU) (i : Nat) : (promote s i).cache = s.cache := rfl

@[simp] theorem promote_alen (s : LRU) (i : Nat) : (promote s i).alen = s.alen := rfl

theorem ringRep_promote {s : LRU} {l₁ l₂ : List Nat} {i : Nat}
    (h : RingRep s (l₁ ++ i :: l₂)) :
    RingRep (promote s i) (l₁ ++ l₂ ++ [i]) := by
  obtain ⟨hpath, hnd, hbound, hrk, hperm, hknd, hkeyof⟩ := h
  obtain ⟨h1, h2⟩ := (path_append_iff s.arena s.root s.root i l₁ l₂).mp hpath
  have hpdef : (s.arena i).prev = lastD l₁ s.root := path_last_prev h1
  have hrprev : (s.arena s.root).prev = lastD l₂ i := by
    have hx := path_last_prev hpath
    rwa [lastD_append_cons] at hx
  obtain ⟨hrmem, hndtail⟩ := List.nodup_cons.mp hnd
  rw [List.nodup_append] at hndtail
  obtain ⟨nd1, ndi2, hdisj⟩ := hndtail
  obtain ⟨hil2, nd2⟩ := List.nodup_cons.mp ndi2
  have hrl1 : s.root ∉ l₁ := fun hx => hrmem (List.mem_append_left _ hx)
  have hri : s.root ≠ i := fun hx => hrmem (by simp [hx])
  have hrl2 : s.root ∉ l₂ := fun hx => hrmem (by simp [hx])
  have hil1 : i ∉ l₁ := fun hx => hdisj hx (by simp)
  have hd12 : ∀ x ∈ l₁, x ∉ l₂ := fun x hx hx2 => hdisj hx (by simp [hx2])
  have hpmem : lastD l₁ s.root ∈ s.root :: l₁ := lastD_mem_cons l₁ s.root
  have hpi : lastD l₁ s.root ≠ i := by
    rcases List.mem_cons.mp hpmem with hc | hc
    · rw [hc]; exact hri
    · intro he; exact hil1 (he ▸ hc)
  have hpermL : (l₁ ++ i :: l₂).Perm (l₁ ++ l₂ ++ [i]) :=
    List.perm_middle.trans (List.perm_append_singleton i (l₁ ++ l₂)).symm
  have hndNew : (s.root :: (l₁ ++ l₂ ++ [i])).Nodup := (hpermL.cons s.root).nodup hnd
  have hboundNew : ∀ j ∈ s.root :: (l₁ ++ l₂ ++ [i]), j < s.alen := by
    intro j hj
    apply hbound
    rcases List.mem_cons.mp hj with hc | hc
    · simp [hc]
    · exact List.mem_cons_of_mem _ (hpermL.symm.subset hc)
  have hpathNew : Path (promote s i).arena s.root (l₁ ++ l₂ ++ [i]) s.root := by
    cases l₂ with
    | nil =>
        have hN : ∀ j, ((promote s i).arena j).next =
            if j = i then s.root else if j = lastD l₁ s.root then i
            else (s.arena j).next := by
          intro j
          rw [promote_next, h2.1, hpdef]
          by_cases hj : j = i
          · simp [hj]
          · by_cases hj2 : j = lastD l₁ s.root <;> simp [hj, hj2]
        have hP : ∀ j, ((promote s i).arena j).prev =
            if j = i then lastD l₁ s.root else if j = s.root then i
            else (s.arena j).prev := by
          intro j
          rw [promote_prev, h2.1, hpdef]
          by_cases hj : j = i
          · simp [hj]
          · by_cases hj2 : j = s.root <;> simp [hj, hj2]
        have hcong : Path (promote s i).arena s.root l₁ i := by
          refine path_congr ?_ ?_ h1
          · intro w hw
            rw [hN w]
            have hw1 : w ≠ i := by
              rintro rfl
              rcases List.mem_cons.mp hw with hc | hc
              · exact hri hc.symm
              · exact hil1 hc
            by_cases hw2 : w = lastD l₁ s.root
            · rw [if_neg hw1, if_pos hw2, hw2]
              exact (path_last_next h1).symm
            · rw [if_neg hw1, if_neg hw2]
          · intro w hw
            rw [hP w]
            rcases List.mem_append.mp hw with hw' | hw'
            · have hw1 : w ≠ i := fun he => hil1 (he ▸ hw')
              have hw2 : w ≠ s.root := fun he => hrl1 (he ▸ hw')
              rw [if_neg hw1, if_neg hw2]
            · have hw1 : w = i := by simpa using hw'
              rw [if_pos hw1, hw1]
              exact hpdef.symm
        have hlinked : Linked (promote s i).arena i s.root := by
          constructor
          · rw [hN i]; simp
          · rw [hP s.root]
            simp [fun he => hri he]
        simpa using (path_snoc_iff (promote s i).arena s.root s.root i l₁).mpr
          ⟨hcong, hlinked⟩
    | cons z l₃ =>
        have hlink_iz : Linked s.arena i z := h2.1
        have hz : Path s.arena z l₃ s.root := h2.2
        have hzl2 : z ∈ z :: l₃ := by simp
        have hrz : s.root ≠ z := fun he => hrl2 (he ▸ hzl2)
        have hrprev2 : (s.arena s.root).prev = lastD l₃ z := by
          rwa [lastD_cons] at hrprev
        have hmmem : lastD l₃ z ∈ z :: l₃ := lastD_mem_cons l₃ z
        have hmi : lastD l₃ z ≠ i := fun he => hil2 (he ▸ hmmem)
        have hpm : lastD l₁ s.root ≠ lastD l₃ z := by
          rcases List.mem_cons.mp hpmem with hc | hc
          · rw [hc]; intro he; exact hrl2 (he ▸ hmmem)
          · intro he; exact hd12 _ hc (he ▸ hmmem)
        have hN : ∀ j, ((promote s i).arena j).next =
            if j = i then s.root else if j = lastD l₃ z then i
            else if j = lastD l₁ s.root then z else (s.arena j).next := by
          intro j
          rw [promote_next, hlink_iz.1, hpdef, hrprev2]
          by_cases hj : j = i
          · simp [hj]
          · by_cases hj2 : j = lastD l₃ z <;>
              by_cases hj3 : j = lastD l₁ s.root <;>
                simp [hj, hj2, hj3, hrz]
        have hP : ∀ j, ((promote s i).arena j).prev =
            if j = i then lastD l₃ z else if j = s.root then i
            else if j = z then lastD l₁ s.root else (s.arena j).prev := by
          intro j
          rw [promote_prev, hlink_iz.1, hpdef, hrprev2]
          by_cases hj : j = i
          · simp [hj, hrz]
          · by_cases hj2 : j = s.root <;>
              by_cases hj3 : j = z <;>
                simp [hj, hj2, hj3, hrz]
        have hA : Path (promote s i).arena s.root l₁ z := by
          refine path_retarget (List.nodup_cons.mpr ⟨hrl1, nd1⟩) ?_ ?_ ?_ ?_ ?_ h1
          · intro hc
            rcases List.mem_cons.mp hc with hc | hc
            · exact hrz hc.symm
            · exact hd12 _ hc hzl2
          · intro w hw hwp
            rw [hN w]
            have hw1 : w ≠ i := by
              rintro rfl
              rcases List.mem_cons.mp hw with hc | hc
              · exact hri hc.symm
              · exact hil1 hc
            have hw2 : w ≠ lastD l₃ z := by
              rintro he
              rcases List.mem_cons.mp hw with hc | hc
              · exact hrl2 (hc ▸ he ▸ hmmem)
              · exact hd12 _ hc (he ▸ hmmem)
            rw [if_neg hw1, if_neg hw2, if_neg hwp]
          · rw [hN (lastD l₁ s.root), if_neg hpi, if_neg hpm, if_pos rfl]
          · intro w hw
            rw [hP w]
            have hw1 : w ≠ i := fun he => hil1 (he ▸ hw)
            have hw2 : w ≠ s.root := fun he => hrl1 (he ▸ hw)
            have hw3 : w ≠ z := fun he => hd12 _ hw (he ▸ hzl2)
            rw [if_neg hw1, if_neg hw2, if_neg hw3]
          · rw [hP z]
            have hz1 : z ≠ i := fun he => hil2 (he ▸ hzl2)
            rw [if_neg hz1, if_neg (fun he => hrz he.symm), if_pos rfl]
        have hB : Path (promote s i).arena z l₃ i := by
          refine path_retarget nd2 hil2 ?_ ?_ ?_ ?_ hz
          · intro w hw hwm
            rw [hN w]
            have hw1 : w ≠ i := fun he => hil2 (he ▸ hw)
            have hw3 : w ≠ lastD l₁ s.root := by
              rintro he
              rcases List.mem_cons.mp hpmem with hc | hc
              · exact hrl2 ((he.trans hc) ▸ hw)
              · exact hd12 _ hc (he ▸ hw)
            rw [if_neg hw1, if_neg hwm, if_neg hw3]
          · rw [hN (lastD l₃ z), if_neg hmi, if_pos rfl]
          · intro w hw
            rw [hP w]
            have hw1 : w ≠ i := fun he => hil2 (he ▸ List.mem_cons_of_mem _ hw)
            have hw2 : w ≠ s.root := fun he => hrl2 (he ▸ List.mem_cons_of_mem _ hw)
            have hw3 : w ≠ z := fun he => (List.nodup_cons.mp nd2).1 (he ▸ hw)
            rw [if_neg hw1, if_neg hw2, if_neg hw3]
          · rw [hP i, if_pos rfl]
        have hC : Linked (promote s i).arena i s.root := by
          constructor
          · rw [hN i]; simp
          · rw [hP s.root]
            rw [if_neg hri, if_pos rfl]
        have hzi : Path (promote s i).arena z (l₃ ++ [i]) s.root :=
          (path_snoc_iff _ _ _ _ _).mpr ⟨hB, hC⟩
        have := path_concat hA hzi
        have hle : l₁ ++ z :: (l₃ ++ [i]) = l₁ ++ (z :: l₃) ++ [i] := by simp
        rwa [hle] at this
  refine ⟨by simpa using hpathNew, by simpa using hndNew, ?_, ?_, ?_, ?_, ?_⟩
  · intro j hj
    simp only [promote_alen, promote_root] at *
    exact hboundNew j hj
  · rw [promote_key]; simpa using hrk
  · simpa using hperm.trans hpermL
  · simpa using hknd
  · intro q hq
    rw [promote_key]
    exact hkeyof q (by simpa using hq)


theorem mem_of_mem_derase {α β : Type} [DecidableEq α] {c : List (α × β)}
    {x : α} {q : α × β} (h : q ∈ derase c x) : q ∈ c := by
  induction c with
  | nil => simp [derase] at h
  | cons p t ih =>
      obtain ⟨k, v⟩ := p
      by_cases hx : x = k
      · simp only [derase, if_pos hx] at h
        exact List.mem_cons_of_mem _ h
      · simp only [derase, if_neg hx] at h
        rcases List.mem_cons.mp h with h | h
        · simp [h]
        · exact List.mem_cons_of_mem _ (ih h)

theorem derase_map_fst_sublist {α β : Type} [DecidableEq α]
    (c : List (α × β)) (x : α) :
    ((derase c x).map Prod.fst).Sublist (c.map Prod.fst) := by
  induction c with
  | nil => simp [derase]
  | cons p t ih =>
      obtain ⟨k, v⟩ := p
      by_cases hx : x = k
      · simp only [derase, if_pos hx, List.map_cons]
        exact List.sublist_cons_self _ _
      · simp only [derase, if_neg hx, List.map_cons]
        exact ih.cons₂ _

theorem derase_length_of_mem {α β : Type} [DecidableEq α] {c : List (α × β)}
    {x : α} (h : x ∈ c.map Prod.fst) :
    (derase c x).length + 1 = c.length := by
  induction c with
  | nil => simp at h
  | cons p t ih =>
      obtain ⟨k, v⟩ := p
      by_cases hx : x = k
      · simp [derase, hx]
      · have h2 := h
        rw [List.map_cons] at h2
        have h' : x ∈ t.map Prod.fst := by
          rcases List.mem_cons.mp h2 with hc | hc
          · exact absurd hc hx
          · exact hc
        simp only [derase, if_neg hx, List.length_cons]
        rw [← ih h']

theorem resumePhase_insert_eq {s : LRU} {k : Key} {v : PyVal}
    (habs : dlookup s.cache k = none) (hfull : s.full = false) :
    resumePhase s k v =
      { s with
        arena := setPrev (setNext (Function.update s.arena s.alen
                   ⟨(s.arena s.root).prev, s.root, some k, some v⟩)
                   (s.arena s.root).prev s.alen) s.root s.alen,
        alen := s.alen + 1,
        cache := dinsert s.cache k s.alen,
        full := decide (s.maxsize ≤ (dinsert s.cache k s.alen).length) } := by
  simp [resumePhase, habs, hfull]

theorem resumePhase_evict_eq {s : LRU} {k k₀ : Key} {v : PyVal} {i₀ : Nat}
    (habs : dlookup s.cache k = none) (hfull : s.full = true)
    (hnext : (s.arena s.root).next = i₀) (hne : i₀ ≠ s.root)
    (hkey : (s.arena i₀).key = some k₀) :
    resumePhase s k v =
      { s with
        arena := setResult (setKey (setResult (setKey s.arena s.root (some k))
                   s.root (some v)) i₀ none) i₀ none,
        root := i₀,
        cache := dinsert (derase s.cache k₀) k s.root } := by
  simp [resumePhase, habs, hfull, hnext, hne, hkey]



theorem ringRep_insert {s : LRU} {l : List Nat} {k : Key} {v : PyVal}
    (h : RingRep s l) (habs : dlookup s.cache k = none)
    (hfull : s.full = false) :
    RingRep (resumePhase s k v) (l ++ [s.alen]) ∧
    (resumePhase s k v).cache = s.cache ++ [(k, s.alen)] ∧
    (resumePhase s k v).alen = s.alen + 1 ∧
    (resumePhase s k v).root = s.root ∧
    (resumePhase s k v).full = decide (s.maxsize ≤ s.cache.length + 1) ∧
    (∀ j, j ≠ s.alen → ((resumePhase s k v).arena j).key = (s.arena j).key) ∧
    ((resumePhase s k v).arena s.alen).key = some k := by
  obtain ⟨hpath, hnd, hbound, hrk, hperm, hknd, hkeyof⟩ := h
  have hkeys : k ∉ s.cache.map Prod.fst := (dlookup_eq_none_iff _ _).mp habs
  have hcache : dinsert s.cache k s.alen = s.cache ++ [(k, s.alen)] :=
    dinsert_eq_append _ _ _ hkeys
  have heq := resumePhase_insert_eq (v := v) habs hfull
  have hL : (s.arena s.root).prev = lastD l s.root := path_last_prev hpath
  have hialen : ∀ j ∈ s.root :: l, j ≠ s.alen :=
    fun j hj => Nat.ne_of_lt (hbound j hj)
  have hralen : s.root ≠ s.alen := hialen s.root (by simp)
  have hLmem : lastD l s.root ∈ s.root :: l := lastD_mem_cons l s.root
  have hLalen : lastD l s.root ≠ s.alen := hialen _ hLmem
  rw [heq]
  have hN : ∀ j, ((setPrev (setNext (Function.update s.arena s.alen
      ⟨(s.arena s.root).prev, s.root, some k, some v⟩)
      (s.arena s.root).prev s.alen) s.root s.alen) j).next =
      if j = lastD l s.root then s.alen
      else if j = s.alen then s.root else (s.arena j).next := by
    intro j
    rw [hL]
    by_cases hj : j = lastD l s.root
    · simp [hj]
    · by_cases hj2 : j = s.alen <;> simp [hj, hj2, Function.update]
  have hP : ∀ j, ((setPrev (setNext (Function.update s.arena s.alen
      ⟨(s.arena s.root).prev, s.root, some k, some v⟩)
      (s.arena s.root).prev s.alen) s.root s.alen) j).prev =
      if j = s.root then s.alen
      else if j = s.alen then lastD l s.root else (s.arena j).prev := by
    intro j
    rw [hL]
    by_cases hj : j = s.root
    · simp [hj]
    · by_cases hj2 : j = s.alen <;> simp [hj, hj2, Function.update]
  have hK : ∀ j, ((setPrev (setNext (Function.update s.arena s.alen
      ⟨(s.arena s.root).prev, s.root, some k, some v⟩)
      (s.arena s.root).prev s.alen) s.root s.alen) j).key =
      if j = s.alen then some k else (s.arena j).key := by
    intro j
    by_cases hj : j = s.alen <;> simp [hj, Function.update]
  have hmemnew : s.alen ∉ s.root :: l := fun hmem => (hialen _ hmem) rfl
  refine ⟨⟨?_, ?_, ?_, ?_, ?_, ?_, ?_⟩, ?_, rfl, rfl, ?_, ?_, ?_⟩
  · -- Path through l ++ [alen]
    show Path _ s.root (l ++ [s.alen]) s.root
    refine (path_snoc_iff _ _ _ _ _).mpr ⟨?_, ?_, ?_⟩
    · refine path_retarget hnd hmemnew ?_ ?_ ?_ ?_ hpath
      · intro w hw hwl
        rw [hN w, if_neg hwl, if_neg (hialen w hw)]
      · rw [hN (lastD l s.root), if_pos rfl]
      · intro w hw
        have hw1 : w ≠ s.root := by
          rintro rfl
          exact (List.nodup_cons.mp hnd).1 hw
        rw [hP w, if_neg hw1, if_neg (hialen w (List.mem_cons_of_mem _ hw))]
      · rw [hP s.alen, if_neg (fun he => hralen he.symm), if_pos rfl]
    · rw [hN s.alen, if_neg (fun he => hLalen he.symm), if_pos rfl]
    · rw [hP s.root, if_pos rfl]
  · -- Nodup
    show (s.root :: (l ++ [s.alen])).Nodup
    have hperm2 : (s.root :: (l ++ [s.alen])).Perm (s.alen :: s.root :: l) := by
      have h1 : (s.root :: (l ++ [s.alen])) = (s.root :: l) ++ [s.alen] := by simp
      rw [h1]
      exact List.perm_append_singleton _ _
    exact hperm2.symm.nodup (List.nodup_cons.mpr ⟨hmemnew, hnd⟩)
  · -- bounds
    show ∀ j ∈ s.root :: (l ++ [s.alen]), j < s.alen + 1
    intro j hj
    rcases List.mem_cons.mp hj with hc | hc
    · exact Nat.lt_succ_of_lt (hbound _ (hc ▸ List.mem_cons_self _ _))
    · rcases List.mem_append.mp hc with hc2 | hc2
      · exact Nat.lt_succ_of_lt (hbound _ (List.mem_cons_of_mem _ hc2))
      · simp at hc2
        simp [hc2]
  · -- root key
    show (_ : Node).key = none
    rw [hK s.root, if_neg hralen]
    exact hrk
  · -- cache perm
    show ((dinsert s.cache k s.alen).map Prod.snd).Perm (l ++ [s.alen])
    rw [hcache]
    simpa using hperm.append (List.Perm.refl [s.alen])
  · -- keys nodup
    show ((dinsert s.cache k s.alen).map Prod.fst).Nodup
    rw [hcache]
    have hperm3 : (s.cache.map Prod.fst ++ [k]).Perm (k :: s.cache.map Prod.fst) :=
      List.perm_append_singleton _ _
    simpa using hperm3.symm.nodup (List.nodup_cons.mpr ⟨hkeys, hknd⟩)
  · -- keyOf
    show ∀ q ∈ dinsert s.cache k s.alen, (_ : Node).key = some q.1
    rw [hcache]
    intro q hq
    rcases List.mem_append.mp hq with hc | hc
    · have hq2 : q.2 ∈ s.cache.map Prod.snd := List.mem_map_of_mem Prod.snd hc
      have hq2l : q.2 ∈ l := hperm.subset hq2
      rw [hK q.2, if_neg (hialen q.2 (List.mem_cons_of_mem _ hq2l))]
      exact hkeyof q hc
    · simp at hc
      rw [hc]
      rw [hK s.alen, if_pos rfl]
  · exact hcache
  · -- full flag
    show decide (s.maxsize ≤ (dinsert s.cache k s.alen).length) =
      decide (s.maxsize ≤ s.cache.length + 1)
    rw [hcache]
    simp
  · -- unchanged keys
    intro j hj
    rw [hK j, if_neg hj]
  · rw [hK s.alen, if_pos rfl]



theorem ringRep_evict {s : LRU} {i₀ : Nat} {t : List Nat} {k k₀ : Key}
    {v : PyVal} (h : RingRep s (i₀ :: t)) (habs : dlookup s.cache k = none)
    (hfull : s.full = true) (hk0 : (k₀, i₀) ∈ s.cache) :
    RingRep (resumePhase s k v) (t ++ [s.root]) ∧
    (resumePhase s k v).cache = derase s.cache k₀ ++ [(k, s.root)] ∧
    (resumePhase s k v).cache.length = s.cache.length ∧
    (resumePhase s k v).alen = s.alen ∧
    (resumePhase s k v).root = i₀ ∧
    (resumePhase s k v).full = s.full := by
  obtain ⟨hpath, hnd, hbound, hrk, hperm, hknd, hkeyof⟩ := h
  have hnext : (s.arena s.root).next = i₀ := by
    have hx := path_head_next hpath
    simpa [hdD] using hx
  have hne : i₀ ≠ s.root := by
    rintro rfl
    exact (List.nodup_cons.mp hnd).1 (by simp)
  have hkey : (s.arena i₀).key = some k₀ := hkeyof (k₀, i₀) hk0
  have heq := resumePhase_evict_eq (v := v) habs hfull hnext hne hkey
  have hkeys : k ∉ s.cache.map Prod.fst := (dlookup_eq_none_iff _ _).mp habs
  have hkd : k ∉ (derase s.cache k₀).map Prod.fst := by
    intro hm
    obtain ⟨q, hq, hq1⟩ := List.mem_map.mp hm
    exact hkeys (hq1 ▸ List.mem_map_of_mem Prod.fst (mem_of_mem_derase hq))
  have hcache2 : dinsert (derase s.cache k₀) k s.root =
      derase s.cache k₀ ++ [(k, s.root)] := dinsert_eq_append _ _ _ hkd
  have hpermD : s.cache.Perm ((k₀, i₀) :: derase s.cache k₀) :=
    derase_perm hknd hk0
  have hpermSnd : ((derase s.cache k₀).map Prod.snd).Perm t := by
    have h1 : (s.cache.map Prod.snd).Perm
        (i₀ :: (derase s.cache k₀).map Prod.snd) := by
      simpa using hpermD.map Prod.snd
    exact (h1.symm.trans hperm).cons_inv
  have hi0t : i₀ ∉ t := (List.nodup_cons.mp (List.nodup_cons.mp hnd).2).1
  have hrt : s.root ∉ i₀ :: t := (List.nodup_cons.mp hnd).1
  rw [heq]
  have hKE : ∀ j, ((setResult (setKey (setResult (setKey s.arena s.root
      (some k)) s.root (some v)) i₀ none) i₀ none) j).key =
      if j = i₀ then none else if j = s.root then some k
      else (s.arena j).key := by
    intro j
    by_cases h1 : j = i₀
    · simp [h1]
    · by_cases h2 : j = s.root <;> simp [h1, h2]
  have hNE : ∀ j, ((setResult (setKey (setResult (setKey s.arena s.root
      (some k)) s.root (some v)) i₀ none) i₀ none) j).next =
      (s.arena j).next := by
    intro j; simp
  have hPE : ∀ j, ((setResult (setKey (setResult (setKey s.arena s.root
      (some k)) s.root (some v)) i₀ none) i₀ none) j).prev =
      (s.arena j).prev := by
    intro j; simp
  refine ⟨⟨?_, ?_, ?_, ?_, ?_, ?_, ?_⟩, hcache2, ?_, rfl, rfl, rfl⟩
  · -- Path from the new root i₀ through t ++ [old root]
    show Path _ i₀ (t ++ [s.root]) i₀
    refine (path_snoc_iff _ _ _ _ _).mpr ⟨?_, ?_, ?_⟩
    · exact path_congr (fun z _ => hNE z) (fun z _ => hPE z) hpath.2
    · rw [hNE s.root]; exact hpath.1.1
    · rw [hPE i₀]; exact hpath.1.2
  · -- Nodup
    show (i₀ :: (t ++ [s.root])).Nodup
    have hp2 : (i₀ :: (t ++ [s.root])).Perm (s.root :: i₀ :: t) := by
      have h1 : (i₀ :: (t ++ [s.root])) = (i₀ :: t) ++ [s.root] := by simp
      rw [h1]
      exact List.perm_append_singleton _ _
    exact hp2.symm.nodup hnd
  · -- bounds
    show ∀ j ∈ i₀ :: (t ++ [s.root]), j < s.alen
    intro j hj
    apply hbound
    rcases List.mem_cons.mp hj with hc | hc
    · simp [hc]
    · rcases List.mem_append.mp hc with hc2 | hc2
      · simp [List.mem_cons_of_mem, hc2]
      · simp at hc2
        simp [hc2]
  · -- new root key is none
    show (_ : Node).key = none
    rw [hKE i₀, if_pos rfl]
  · -- cache to ring agreement
    show ((dinsert (derase s.cache k₀) k s.root).map Prod.snd).Perm
      (t ++ [s.root])
    rw [hcache2]
    simpa using hpermSnd.append (List.Perm.refl [s.root])
  · -- distinct keys
    show ((dinsert (derase s.cache k₀) k s.root).map Prod.fst).Nodup
    rw [hcache2]
    have hndD : ((derase s.cache k₀).map Prod.fst).Nodup :=
      (derase_map_fst_sublist _ _).nodup hknd
    have hp3 : ((derase s.cache k₀).map Prod.fst ++ [k]).Perm
        (k :: (derase s.cache k₀).map Prod.fst) :=
      List.perm_append_singleton _ _
    simpa using hp3.symm.nodup (List.nodup_cons.mpr ⟨hkd, hndD⟩)
  · -- each entry stores its key
    show ∀ q ∈ dinsert (derase s.cache k₀) k s.root, (_ : Node).key = some q.1
    rw [hcache2]
    intro q hq
    rcases List.mem_append.mp hq with hc | hc
    · have hqc : q ∈ s.cache := mem_of_mem_derase hc
      have hq1 : q.2 ≠ i₀ := by
        intro he
        exact hi0t (he ▸ hpermSnd.subset (List.mem_map_of_mem Prod.snd hc))
      have hq2 : q.2 ≠ s.root := by
        intro he
        exact hrt (he ▸ hperm.subset (List.mem_map_of_mem Prod.snd hqc))
      rw [hKE q.2, if_neg hq1, if_neg hq2]
      exact hkeyof q hqc
    · simp at hc
      rw [hc]
      rw [hKE s.root, if_neg (fun he => hne he.symm), if_pos rfl]
  · -- size unchanged
    show (dinsert (derase s.cache k₀) k s.root).length = s.cache.length
    rw [hcache2]
    have hlen : (derase s.cache k₀).length + 1 = s.cache.length :=
      derase_length_of_mem (List.mem_map_of_mem Prod.fst hk0)
    simpa using hlen

theorem ringRep_clear {s : LRU} {l : List Nat} (h : RingRep s l) :
    RingRep (cache_clear s) [] := by
  obtain ⟨hpath, hnd, hbound, hrk, hperm, hknd, hkeyof⟩ := h
  refine ⟨⟨?_, ?_⟩, by simp, ?_, ?_, by simp [cache_clear], by simp [cache_clear],
    by simp [cache_clear]⟩
  · show ((cache_clear s).arena s.root).next = s.root
    simp [cache_clear, Function.update]
  · show ((cache_clear s).arena s.root).prev = s.root
    simp [cache_clear, Function.update]
  · intro j hj
    have hj2 : j = s.root := by simpa [cache_clear] using hj
    have : s.root < s.alen := hbound s.root (by simp)
    simpa [cache_clear, hj2] using this
  · show ((cache_clear s).arena s.root).key = none
    simp [cache_clear, Function.update]



theorem ringRep_congr {s s2 : LRU} {l : List Nat} (h : RingRep s l)
    (ha : s2.arena = s.arena) (hroot : s2.root = s.root)
    (halen : s2.alen = s.alen) (hc : s2.cache = s.cache) : RingRep s2 l := by
  obtain ⟨h1, h2, h3, h4, h5, h6, h7⟩ := h
  refine ⟨?_, ?_, ?_, ?_, ?_, ?_, ?_⟩
  · rw [ha, hroot]; exact h1
  · rw [hroot]; exact h2
  · rw [hroot, halen]; exact h3
  · rw [ha, hroot]; exact h4
  · rw [hc]; exact h5
  · rw [hc]; exact h6
  · rw [ha, hc]; exact h7

theorem initLRU_ringRep (N : Nat) : RingRep (initLRU N) [] := by
  refine ⟨⟨rfl, rfl⟩, by simp, ?_, rfl, by simp [initLRU], by simp [initLRU],
    by simp [initLRU]⟩
  intro j hj
  have : j = 0 := by simpa [initLRU] using hj
  simp [initLRU, this]

theorem initLRU_inv (N : Nat) (hN : 0 < N) : Inv (initLRU N) := by
  refine ⟨⟨[], initLRU_ringRep N⟩, by simp [initLRU], ?_, hN⟩
  show (initLRU N).full = decide (N ≤ 0)
  have : ¬ (N ≤ 0) := by omega
  simp [initLRU, this]

theorem inv_step (s : LRU) (op : Op) (h : Inv s) : Inv (step s op) := by
  obtain ⟨⟨l, hring⟩, hlen, hfulliff, hpos⟩ := h
  cases op with
  | access k =>
      show Inv (accessPhase s k).2
      cases hlk : dlookup s.cache k with
      | none =>
          have hs : (accessPhase s k).2 = { s with misses := s.misses + 1 } := by
            simp [accessPhase, hlk]
          rw [hs]
          exact ⟨⟨l, ringRep_congr hring rfl rfl rfl rfl⟩, hlen, hfulliff, hpos⟩
      | some i =>
          have hs : (accessPhase s k).2 = { promote s i with hits := s.hits + 1 } := by
            simp [accessPhase, hlk]
          rw [hs]
          have hmem : i ∈ l := by
            have h1 : (k, i) ∈ s.cache := mem_of_dlookup_eq_some hlk
            exact hring.2.2.2.2.1.subset (List.mem_map_of_mem Prod.snd h1)
          obtain ⟨l₁, l₂, rfl⟩ := List.append_of_mem hmem
          have hr := ringRep_promote hring
          exact ⟨⟨l₁ ++ l₂ ++ [i], ringRep_congr hr rfl rfl rfl rfl⟩,
            by simpa using hlen, by simpa using hfulliff, hpos⟩
  | resume k v =>
      show Inv (resumePhase s k v)
      cases hlk : dlookup s.cache k with
      | some i =>
          have hs : resumePhase s k v = s := by
            simp [resumePhase, hlk]
          rw [hs]
          exact ⟨⟨l, hring⟩, hlen, hfulliff, hpos⟩
      | none =>
          cases hf : s.full with
          | false =>
              obtain ⟨hr, hc, halen, hroot, hfull2, _, _⟩ :=
                ringRep_insert (v := v) hring hlk hf
              have hms : (resumePhase s k v).maxsize = s.maxsize := by
                simp [resumePhase, hlk, hf]
              have hlt : s.cache.length < s.maxsize := by
                rw [hf] at hfulliff
                have := of_decide_eq_false hfulliff.symm
                omega
              refine ⟨⟨l ++ [s.alen], hr⟩, ?_, ?_, by rw [hms]; exact hpos⟩
              · rw [hc, hms]
                simpa using hlt
              · rw [hfull2, hc, hms]
                simp
          | true =>
              have hlge : s.maxsize ≤ s.cache.length := by
                rw [hf] at hfulliff
                exact of_decide_eq_true hfulliff.symm
              have hne : l ≠ [] := by
                intro hl
                have hp := hring.2.2.2.2.1
                rw [hl] at hp
                have : s.cache.length = 0 := by
                  simpa using hp.length_eq
                omega
              obtain ⟨i₀, t, rfl⟩ := List.exists_cons_of_ne_nil hne
              have hmem : i₀ ∈ s.cache.map Prod.snd :=
                hring.2.2.2.2.1.symm.subset (by simp)
              obtain ⟨q, hq, hq2⟩ := List.mem_map.mp hmem
              obtain ⟨k₀, i₀'⟩ := q
              have hq2' : i₀' = i₀ := hq2
              subst hq2'
              obtain ⟨hr, hc, hlen2, halen, hroot, hfull2⟩ :=
                ringRep_evict (v := v) hring hlk hf hq
              have hms : (resumePhase s k v).maxsize = s.maxsize := by
                simp [resumePhase, hlk, hf]
              refine ⟨⟨t ++ [s.root], hr⟩, ?_, ?_, by rw [hms]; exact hpos⟩
              · rw [hlen2, hms]; exact hlen
              · rw [hfull2, hlen2, hms]; exact hfulliff
  | clear =>
      show Inv (cache_clear s)
      refine ⟨⟨[], ringRep_clear hring⟩, ?_, ?_, hpos⟩
      · simp [cache_clear]
      · have : ¬ (s.maxsize ≤ 0) := by omega
        simp [cache_clear, this]

theorem inv_run (s : LRU) (ops : List Op) (h : Inv s) : Inv (run s ops) := by
  induction ops generalizing s with
  | nil => exact h
  | cons op rest ih => exact ih _ (inv_step s op h)

theorem step_maxsize (s : LRU) (op : Op) : (step s op).maxsize = s.maxsize := by
  cases op with
  | access k =>
      show ((accessPhase s k).2).maxsize = s.maxsize
      cases hlk : dlookup s.cache k with
      | none => simp [accessPhase, hlk]
      | some i => simp [accessPhase, hlk, promote]
  | resume k v =>
      show (resumePhase s k v).maxsize = s.maxsize
      cases hlk : dlookup s.cache k with
      | some i => simp [resumePhase, hlk]
      | none =>
          cases hf : s.full with
          | false => simp [resumePhase, hlk, hf]
          | true => simp [resumePhase, hlk, hf]
  | clear => simp [step, cache_clear]

theorem run_maxsize (s : LRU) (ops : List Op) : (run s ops).maxsize = s.maxsize := by
  induction ops generalizing s with
  | nil => rfl
  | cons op rest ih => exact (ih _).trans (step_maxsize s op)

/-- Walk the ring by next pointers starting at a given link, collecting
links until the root sentinel is reached again (or fuel runs out). -/
def traverseFrom (s : LRU) : Nat → Nat → List Nat
  | 0, _ => []
  | fuel + 1, x => if x = s.root then [] else x :: traverseFrom s fuel (s.arena x).next

/-- The ring traversal: follow next pointers from the link after root until
root returns; the allocation bound is always enough fuel for a well formed
ring. -/
def ringTraverse (s : LRU) : List Nat :=
  traverseFrom s s.alen ((s.arena s.root).next)

theorem traverseFrom_eq {s : LRU} (l : List Nat) (x : Nat) (fuel : Nat)
    (h : Path s.arena x l s.root) (hnr : ∀ i ∈ l, i ≠ s.root)
    (hfuel : l.length < fuel) :
    traverseFrom s fuel ((s.arena x).next) = l := by
  induction l generalizing x fuel with
  | nil =>
      rw [h.1]
      cases fuel with
      | zero => rfl
      | succ f => simp [traverseFrom]
  | cons z t ih =>
      rw [h.1.1]
      cases fuel with
      | zero => omega
      | succ f =>
          rw [traverseFrom, if_neg (hnr z (by simp))]
          have hf : t.length < f := by
            simp only [List.length_cons] at hfuel
            omega
          rw [ih z f h.2 (fun i hi => hnr i (List.mem_cons_of_mem _ hi)) hf]

theorem ringTraverse_eq {s : LRU} {l : List Nat} (h : RingRep s l) :
    ringTraverse s = l := by
  obtain ⟨hpath, hnd, hbound, hrk, hperm, hknd, hkeyof⟩ := h
  have hnr : ∀ i ∈ l, i ≠ s.root := by
    intro i hi he
    exact (List.nodup_cons.mp hnd).1 (he ▸ hi)
  have hsub : (s.root :: l) ⊆ List.range s.alen := by
    intro j hj
    exact List.mem_range.mpr (hbound j hj)
  have hlen : (s.root :: l).length ≤ s.alen := by
    have := (List.subperm_of_subset hnd hsub).length_le
    simpa using this
  have hfuel : l.length < s.alen := by
    simp at hlen
    omega
  exact traverseFrom_eq l s.root s.alen hpath hnr hfuel



theorem dlookup_isSome_iff {α β : Type} [DecidableEq α] (c : List (α × β))
    (x : α) : (dlookup c x).isSome = true ↔ x ∈ c.map Prod.fst := by
  cases h : dlookup c x with
  | none =>
      simp only [Option.isSome_none]
      constructor
      · intro hfalse; cases hfalse
      · intro hmem
        exact absurd h (by simpa [dlookup_eq_none_iff] using hmem)
  | some y =>
      simp only [Option.isSome_some, true_iff]
      exact List.mem_map_of_mem Prod.fst (mem_of_dlookup_eq_some h)

theorem runCalls_append (s : LRU) (ps qs : List (Key × PyVal)) :
    runCalls s (ps ++ qs) = runCalls (runCalls s ps) qs := by
  induction ps generalizing s with
  | nil => rfl
  | cons p t ih =>
      obtain ⟨k, v⟩ := p
      simp [runCalls, ih]

/-- Filling an LRU cache with fresh distinct keys within capacity: every call
misses, each key is appended to the index and to the MRU end of the ring, and
the ring alignment with the index is preserved. -/
theorem runCalls_fresh (ps : List (Key × PyVal)) (s : LRU) (l : List Nat)
    (hring : RingRep s l) (halign : s.cache.map Prod.snd = l)
    (hnd : (ps.map Prod.fst).Nodup)
    (hfresh : ∀ p ∈ ps, p.1 ∉ s.cache.map Prod.fst)
    (hcap : s.cache.length + ps.length ≤ s.maxsize)
    (hfull : s.full = decide (s.maxsize ≤ s.cache.length)) :
    ∃ l2, RingRep (runCalls s ps) l2 ∧
      (runCalls s ps).cache.map Prod.snd = l2 ∧
      (runCalls s ps).cache.map Prod.fst =
        s.cache.map Prod.fst ++ ps.map Prod.fst ∧
      (runCalls s ps).cache.length = s.cache.length + ps.length ∧
      (runCalls s ps).maxsize = s.maxsize ∧
      (runCalls s ps).full =
        decide (s.maxsize ≤ s.cache.length + ps.length) ∧
      callsTrace s ps = List.replicate ps.length false := by
  induction ps generalizing s l with
  | nil =>
      refine ⟨l, hring, halign, by simp [runCalls], by simp [runCalls], rfl,
        by simpa [runCalls] using hfull, rfl⟩
  | cons p t ih =>
      obtain ⟨k, v⟩ := p
      have hkfresh : k ∉ s.cache.map Prod.fst := hfresh (k, v) (by simp)
      have hlk : dlookup s.cache k = none := (dlookup_eq_none_iff _ _).mpr hkfresh
      have hnotfull : s.full = false := by
        rw [hfull]
        have : ¬ (s.maxsize ≤ s.cache.length) := by
          simp only [List.length_cons] at hcap
          omega
        simp [this]
      have hdo : doCall s k v = resumePhase { s with misses := s.misses + 1 } k v := by
        simp [doCall, accessPhase, hlk]
      have hring1 : RingRep { s with misses := s.misses + 1 } l :=
        ringRep_congr hring rfl rfl rfl rfl
      have hlk1 : dlookup ({ s with misses := s.misses + 1 } : LRU).cache k = none := hlk
      have hfull1 : ({ s with misses := s.misses + 1 } : LRU).full = false := hnotfull
      obtain ⟨hr2, hc2, halen2, hroot2, hfull2, _, _⟩ :=
        ringRep_insert (v := v) hring1 hlk1 hfull1
      have hms2 : (resumePhase { s with misses := s.misses + 1 } k v).maxsize
          = s.maxsize :=
        step_maxsize { s with misses := s.misses + 1 } (Op.resume k v)
      set s2 := resumePhase { s with misses := s.misses + 1 } k v with hs2
      have halign2 : s2.cache.map Prod.snd = l ++ [s.alen] := by
        rw [hc2]
        simp [halign]
      have hkeys2 : s2.cache.map Prod.fst = s.cache.map Prod.fst ++ [k] := by
        rw [hc2]
        simp
      have hlen2 : s2.cache.length = s.cache.length + 1 := by
        rw [hc2]
        simp
      have hndt : (t.map Prod.fst).Nodup := (List.nodup_cons.mp (by simpa using hnd)).2
      have hknott : k ∉ t.map Prod.fst := (List.nodup_cons.mp (by simpa using hnd)).1
      have hfresh2 : ∀ q ∈ t, q.1 ∉ s2.cache.map Prod.fst := by
        intro q hq
        rw [hkeys2]
        simp only [List.mem_append, List.mem_singleton]
        push_neg
        constructor
        · exact hfresh q (List.mem_cons_of_mem _ hq)
        · intro he
          exact hknott (he ▸ List.mem_map_of_mem Prod.fst hq)
      have hcap2 : s2.cache.length + t.length ≤ s2.maxsize := by
        rw [hlen2, hms2]
        simp only [List.length_cons] at hcap
        omega
      have hfull2' : s2.full = decide (s2.maxsize ≤ s2.cache.length) := by
        rw [hfull2, hlen2, hms2]
      obtain ⟨l2, hA, hB, hC, hD, hE, hF, hG⟩ := ih s2 (l ++ [s.alen]) hr2
        halign2 hndt hfresh2 hcap2 hfull2'
      refine ⟨l2, ?_, ?_, ?_, ?_, ?_, ?_, ?_⟩
      · show RingRep (runCalls s ((k, v) :: t)) l2
        have : runCalls s ((k, v) :: t) = runCalls s2 t := by
          simp [runCalls, hdo]
        rw [this]; exact hA
      · have : runCalls s ((k, v) :: t) = runCalls s2 t := by
          simp [runCalls, hdo]
        rw [this]; exact hB
      · have hrc : runCalls s ((k, v) :: t) = runCalls s2 t := by
          simp [runCalls, hdo]
        rw [hrc, hC, hkeys2]
        simp
      · have hrc : runCalls s ((k, v) :: t) = runCalls s2 t := by
          simp [runCalls, hdo]
        rw [hrc, hD, hlen2]
        simp only [List.length_cons]
        omega
      · have hrc : runCalls s ((k, v) :: t) = runCalls s2 t := by
          simp [runCalls, hdo]
        rw [hrc, hE, hms2]
      · have hrc : runCalls s ((k, v) :: t) = runCalls s2 t := by
          simp [runCalls, hdo]
        rw [hrc, hF, hlen2, hms2]
        simp only [List.length_cons]
        rw [decide_eq_decide]
        omega
      · show callsTrace s ((k, v) :: t) = List.replicate ((k, v) :: t).length false
        rw [callsTrace, hlk]
        have hdo2 : doCall s k v = s2 := hdo
        rw [hdo2, hG]
        simp [List.replicate_succ]



/-- The key of a one positional integer argument call, as built by make_key
on the fast path. -/
def mkIntKey (n : Int) : Key := make_key [PyVal.vint n] [] false

/-- The call sequence of the spec's Scenario A on a cache of maxsize 2:
Call(1), Call(2), Call(1), Call(3), Call(2), Call(1), with a fixed value per
key. -/
def scenarioA : List (Key × PyVal) :=
  [(mkIntKey 1, PyVal.vint 11), (mkIntKey 2, PyVal.vint 12),
   (mkIntKey 1, PyVal.vint 11), (mkIntKey 3, PyVal.vint 13),
   (mkIntKey 2, PyVal.vint 12), (mkIntKey 1, PyVal.vint 11)]







theorem accessPhase_fst_isSome (s : LRU) (k : Key) :
    ((accessPhase s k).1).isSome = (dlookup s.cache k).isSome := by
  cases h : dlookup s.cache k <;> simp [accessPhase, h]

theorem accessPhase_fst_none {s : LRU} {k : Key}
    (h : dlookup s.cache k = none) : (accessPhase s k).1 = none := by
  simp [accessPhase, h]

theorem lru_fill_evicts (N : Nat) (hN : 0 < N) (k0 kN : Key)
    (mid : List Key) (f : Key → PyVal)
    (hlen : mid.length + 1 = N) (hnd : (k0 :: (mid ++ [kN])).Nodup) :
    (dlookup (runCalls (initLRU N)
        ((k0 :: (mid ++ [kN])).map (fun k => (k, f k)))).cache k0 = none) ∧
    (∀ k' ∈ mid ++ [kN],
      (dlookup (runCalls (initLRU N)
        ((k0 :: (mid ++ [kN])).map (fun k => (k, f k)))).cache k').isSome
        = true) := by
  have hknotmem : k0 ∉ mid ++ [kN] := (List.nodup_cons.mp hnd).1
  have hndtail : (mid ++ [kN]).Nodup := (List.nodup_cons.mp hnd).2
  have hkNmid : kN ∉ mid := by
    have hp : (mid ++ [kN]).Perm (kN :: mid) := List.perm_append_singleton _ _
    exact (List.nodup_cons.mp (hp.nodup hndtail)).1
  have hk0kN : k0 ≠ kN := by
    intro he
    exact hknotmem (by simp [he])
  have hk0mid : k0 ∉ mid := fun hm => hknotmem (List.mem_append_left _ hm)
  have hndhead : (k0 :: mid).Nodup := List.nodup_cons.mpr ⟨hk0mid, by
    have : mid.Sublist (mid ++ [kN]) := List.sublist_append_left _ _
    exact this.nodup hndtail⟩
  -- split the run: fill with k0 :: mid, then the evicting call of kN
  have hsplit : (k0 :: (mid ++ [kN])).map (fun k => (k, f k)) =
      ((k0 :: mid).map (fun k => (k, f k))) ++ [(kN, f kN)] := by
    simp
  have hmapfst : ∀ (l : List Key),
      (l.map (fun k => (k, f k))).map Prod.fst = l := by
    intro l
    induction l with
    | nil => rfl
    | cons a t ih => simp only [List.map_cons, ih]
  rw [hsplit, runCalls_append]
  set ps₁ := (k0 :: mid).map (fun k => (k, f k)) with hps₁
  have hfull0 : (initLRU N).full = decide (N ≤ ((initLRU N).cache).length) := by
    have : ¬ (N ≤ 0) := by omega
    simp [initLRU, this]
  obtain ⟨l2, hring1, halign1, hkeys1, hlen1, hms1, hfull1, htrace1⟩ :=
    runCalls_fresh ps₁ (initLRU N) [] (initLRU_ringRep N) (by simp [initLRU])
      (by rw [hps₁, hmapfst]; exact hndhead)
      (by intro p hp; simp [initLRU])
      (by simp [initLRU, hps₁]; omega)
      hfull0
  set s₁ := runCalls (initLRU N) ps₁ with hs₁
  have hkeys1' : s₁.cache.map Prod.fst = k0 :: mid := by
    rw [hkeys1, hps₁, hmapfst]
    simp [initLRU]
  have hlen1' : s₁.cache.length = N := by
    rw [hlen1]
    simp [initLRU, hps₁]
    omega
  have hfull1' : s₁.full = true := by
    rw [hfull1]
    simp [initLRU, hps₁]
    omega
  have hkN1 : kN ∉ s₁.cache.map Prod.fst := by
    rw [hkeys1']
    intro hm
    rcases List.mem_cons.mp hm with hc | hc
    · exact hk0kN hc.symm
    · exact hkNmid hc
  have hlkN : dlookup s₁.cache kN = none := (dlookup_eq_none_iff _ _).mpr hkN1
  -- the final call takes the evict path
  show (dlookup (runCalls s₁ [(kN, f kN)]).cache k0 = none) ∧ _
  have hrc1 : runCalls s₁ [(kN, f kN)] = doCall s₁ kN (f kN) := rfl
  have hdo : doCall s₁ kN (f kN) =
      resumePhase { s₁ with misses := s₁.misses + 1 } kN (f kN) := by
    simp [doCall, accessPhase, hlkN]
  cases hc : s₁.cache with
  | nil =>
      rw [hc] at hlen1'
      simp at hlen1'
      omega
  | cons q crest =>
      have hq1 : q.1 = k0 ∧ crest.map Prod.fst = mid := by
        rw [hc] at hkeys1'
        simpa using hkeys1'
      have hqeq : q = (k0, q.2) := by
        rw [← hq1.1]
      have hl2eq : l2 = q.2 :: crest.map Prod.snd := by
        rw [← halign1, hc]
        simp
      have hring1' : RingRep { s₁ with misses := s₁.misses + 1 }
          (q.2 :: crest.map Prod.snd) :=
        ringRep_congr (hl2eq ▸ hring1) rfl rfl rfl rfl
      have hqmem : (k0, q.2) ∈ ({ s₁ with misses := s₁.misses + 1 } : LRU).cache := by
        show (k0, q.2) ∈ s₁.cache
        rw [hc, ← hqeq]
        simp
      obtain ⟨hr2, hc2, hlen2, halen2, hroot2, hfull2⟩ :=
        ringRep_evict (v := f kN) hring1' hlkN hfull1' hqmem
      have hder : derase ({ s₁ with misses := s₁.misses + 1 } : LRU).cache k0
          = crest := by
        show derase s₁.cache k0 = crest
        rw [hc, hqeq]
        simp [derase]
      have hcache2 : (resumePhase { s₁ with misses := s₁.misses + 1 } kN
          (f kN)).cache = crest ++ [(kN, s₁.root)] := by
        rw [hc2, hder]
      have hkeysF : (runCalls s₁ [(kN, f kN)]).cache.map Prod.fst
          = mid ++ [kN] := by
        rw [hrc1, hdo, hcache2]
        simp [hq1.2]
      constructor
      · rw [dlookup_eq_none_iff, hkeysF]
        exact hknotmem
      · intro k' hk'
        rw [dlookup_isSome_iff, hkeysF]
        exact hk'

theorem mark_not_mem_map_val (l : List PyVal) :
    KeyElem.mark ∉ l.map KeyElem.val := by
  intro h
  obtain ⟨v, _, hv⟩ := List.mem_map.mp h
  cases hv

theorem mark_not_mem_map_ty (l : List PyType) :
    KeyElem.mark ∉ l.map KeyElem.ty := by
  intro h
  obtain ⟨v, _, hv⟩ := List.mem_map.mp h
  cases hv

theorem splitMark {a1 a2 r1 r2 : List KeyElem}
    (h : a1 ++ KeyElem.mark :: r1 = a2 ++ KeyElem.mark :: r2)
    (h1 : KeyElem.mark ∉ a1) (h2 : KeyElem.mark ∉ a2) :
    a1 = a2 ∧ r1 = r2 := by
  induction a1 generalizing a2 with
  | nil =>
      cases a2 with
      | nil => simpa using h
      | cons b t2 =>
          simp only [List.nil_append, List.cons_append, List.cons.injEq] at h
          exact absurd (h.1 ▸ List.mem_cons_self b t2) (h.1 ▸ h2)
  | cons b t1 ih =>
      cases a2 with
      | nil =>
          simp only [List.cons_append, List.nil_append, List.cons.injEq] at h
          exact absurd (by simp [h.1]) h1
      | cons c t2 =>
          simp only [List.cons_append, List.cons.injEq] at h
          have hm1 : KeyElem.mark ∉ t1 := fun hm => h1 (List.mem_cons_of_mem _ hm)
          have hm2 : KeyElem.mark ∉ t2 := fun hm => h2 (List.mem_cons_of_mem _ hm)
          obtain ⟨he1, he2⟩ := ih h.2 hm1 hm2
          exact ⟨by rw [h.1, he1], he2⟩

theorem valTySplit {v1 v2 : List PyVal} {t1 t2 : List PyType}
    (h : v1.map KeyElem.val ++ t1.map KeyElem.ty =
      v2.map KeyElem.val ++ t2.map KeyElem.ty) :
    v1 = v2 ∧ t1 = t2 := by
  induction v1 generalizing v2 with
  | nil =>
      cases v2 with
      | nil =>
          simp only [List.map_nil, List.nil_append] at h
          exact ⟨rfl, by
            have := List.map_injective_iff.mpr (fun a b hab => by
              cases hab; rfl) h
            exact this⟩
      | cons w t =>
          exfalso
          cases t1 with
          | nil => simp at h
          | cons ty1 tt1 =>
              simp only [List.map_nil, List.nil_append, List.map_cons,
                List.cons_append, List.cons.injEq] at h
              cases h.1
  | cons w1 r1 ih =>
      cases v2 with
      | nil =>
          exfalso
          cases t2 with
          | nil => simp at h
          | cons ty2 tt2 =>
              simp only [List.map_nil, List.nil_append, List.map_cons,
                List.cons_append, List.cons.injEq] at h
              cases h.1
      | cons w2 r2 =>
          simp only [List.map_cons, List.cons_append, List.cons.injEq] at h
          have hw : w1 = w2 := by
            have := h.1
            cases this
            rfl
          obtain ⟨hr, ht⟩ := ih h.2
          exact ⟨by rw [hw, hr], ht⟩

theorem kwdFlat_inj {kw1 kw2 : List (String × PyVal)}
    (h : kwdFlatVals kw1 = kwdFlatVals kw2) : kw1 = kw2 := by
  induction kw1 generalizing kw2 with
  | nil =>
      cases kw2 with
      | nil => rfl
      | cons p t => simp [kwdFlatVals] at h
  | cons p t ih =>
      cases kw2 with
      | nil => simp [kwdFlatVals] at h
      | cons q u =>
          obtain ⟨n1, v1⟩ := p
          obtain ⟨n2, v2⟩ := q
          simp only [kwdFlatVals, List.flatMap_cons, List.cons_append,
            List.cons.injEq] at h
          obtain ⟨hn, hv, hrest⟩ := h
          have hn' : n1 = n2 := by cases hn; rfl
          have : t = u := ih (by simpa [kwdFlatVals] using hrest)
          rw [hn', hv, this]



/-- The flat value-and-marker part of the key tuple, before any typed-mode
type suffix (the state of the key variable after source line 55). -/
def baseElems (a : List PyVal) (kw : List (String × PyVal)) : List KeyElem :=
  if kw.isEmpty then a.map KeyElem.val
  else a.map KeyElem.val ++ KeyElem.mark :: (kwdFlatVals kw).map KeyElem.val

theorem make_key_typed_eq (a : List PyVal) (kw : List (String × PyVal)) :
    make_key a kw true = Key.seq
      (baseElems a kw ++ a.map (fun v => KeyElem.ty (pyType v)) ++
        (if kw.isEmpty then [] else kw.map (fun p => KeyElem.ty (pyType p.2))))
      (hashElems (baseElems a kw ++ a.map (fun v => KeyElem.ty (pyType v)) ++
        (if kw.isEmpty then [] else kw.map (fun p => KeyElem.ty (pyType p.2))))) := by
  by_cases hkw : kw.isEmpty <;> simp [make_key, baseElems, hkw]

theorem make_key_untyped_kw (a : List PyVal) (kw : List (String × PyVal))
    (hkw : ¬ kw.isEmpty) :
    make_key a kw false = Key.seq (baseElems a kw)
      (hashElems (baseElems a kw)) := by
  cases kw with
  | nil => simp at hkw
  | cons p t =>
      obtain ⟨n, w⟩ := p
      cases a with
      | nil => simp [make_key, baseElems, kwdFlatVals]
      | cons x a2 =>
          cases a2 with
          | nil => simp [make_key, baseElems, kwdFlatVals]
          | cons y a3 => simp [make_key, baseElems, kwdFlatVals]

theorem make_key_nokw_fast {a : List PyVal} {v : PyVal}
    (h : make_key a [] false = Key.fast v) :
    a = [v] ∧ pyType v ∈ DEFAULT_FAST_TYPES := by
  cases a with
  | nil => simp [make_key] at h
  | cons w rest =>
      cases rest with
      | nil =>
          by_cases hf : pyType w ∈ DEFAULT_FAST_TYPES
          · have h2 : Key.fast w = Key.fast v := by
              simpa [make_key, hf] using h
            injection h2 with hwv
            subst hwv
            exact ⟨rfl, hf⟩
          · simp [make_key, hf] at h
      | cons x rest2 => simp [make_key] at h

theorem make_key_nokw_seq {a : List PyVal} {l : List KeyElem} {hv : Nat}
    (h : make_key a [] false = Key.seq l hv) :
    l = a.map KeyElem.val ∧ hv = hashElems l := by
  cases a with
  | nil =>
      simp [make_key] at h
      exact ⟨by simp [h.1], by rw [h.1]; exact h.2.symm⟩
  | cons w rest =>
      cases rest with
      | nil =>
          by_cases hf : pyType w ∈ DEFAULT_FAST_TYPES
          · simp [make_key, hf] at h
          · simp [make_key, hf] at h
            exact ⟨by simp [h.1.symm], by rw [← h.1]; exact h.2.symm⟩
      | cons x rest2 =>
          simp [make_key] at h
          exact ⟨by simp [h.1.symm], by rw [← h.1]; exact h.2.symm⟩

theorem mark_not_mem_baseElems_of_empty {a : List PyVal}
    {kw : List (String × PyVal)} (hkw : kw.isEmpty) :
    KeyElem.mark ∉ baseElems a kw := by
  simp only [baseElems, if_pos hkw]
  exact mark_not_mem_map_val a

theorem baseElems_inj {a1 a2 : List PyVal} {kw1 kw2 : List (String × PyVal)}
    (h : baseElems a1 kw1 = baseElems a2 kw2) : a1 = a2 ∧ kw1 = kw2 := by
  by_cases h1 : kw1.isEmpty <;> by_cases h2 : kw2.isEmpty
  · rw [baseElems, if_pos h1, baseElems, if_pos h2] at h
    refine ⟨?_, ?_⟩
    · exact List.map_injective_iff.mpr (fun x y hxy => by cases hxy; rfl) h
    · rw [List.isEmpty_iff] at h1 h2
      rw [h1, h2]
  · exfalso
    rw [baseElems, if_pos h1, baseElems, if_neg h2] at h
    exact mark_not_mem_map_val a1 (h ▸ (by simp : KeyElem.mark ∈
      a2.map KeyElem.val ++ KeyElem.mark :: (kwdFlatVals kw2).map KeyElem.val))
  · exfalso
    rw [baseElems, if_neg h1, baseElems, if_pos h2] at h
    exact mark_not_mem_map_val a2 (h ▸ (by simp : KeyElem.mark ∈
      a1.map KeyElem.val ++ KeyElem.mark :: (kwdFlatVals kw1).map KeyElem.val))
  · rw [baseElems, if_neg h1, baseElems, if_neg h2] at h
    obtain ⟨ha, hr⟩ := splitMark h (mark_not_mem_map_val a1)
      (mark_not_mem_map_val a2)
    refine ⟨List.map_injective_iff.mpr (fun x y hxy => by cases hxy; rfl) ha,
      kwdFlat_inj (List.map_injective_iff.mpr
        (fun x y hxy => by cases hxy; rfl) hr)⟩



theorem map_val_inj {x y : List PyVal}
    (h : x.map KeyElem.val = y.map KeyElem.val) : x = y :=
  List.map_injective_iff.mpr (fun a b hab => by cases hab; rfl) h

theorem tymap_args (a : List PyVal) :
    a.map (fun v => KeyElem.ty (pyType v)) = (a.map pyType).map KeyElem.ty := by
  induction a with
  | nil => rfl
  | cons x t ih => simp [ih]

theorem tymap_kwds (kw : List (String × PyVal)) :
    kw.map (fun p => KeyElem.ty (pyType p.2)) =
      (kw.map (fun p => pyType p.2)).map KeyElem.ty := by
  induction kw with
  | nil => rfl
  | cons x t ih => simp [ih]

theorem mark_not_mem_typedList {a : List PyVal} {kw : List (String × PyVal)}
    (h : kw.isEmpty) :
    KeyElem.mark ∉ baseElems a kw ++ a.map (fun v => KeyElem.ty (pyType v)) ++
      (if kw.isEmpty then [] else kw.map (fun p => KeyElem.ty (pyType p.2))) := by
  rw [if_pos h]
  intro hm
  rw [List.append_nil, List.mem_append] at hm
  rcases hm with hm | hm
  · exact mark_not_mem_baseElems_of_empty h hm
  · exact mark_not_mem_map_ty (a.map pyType) (by rwa [tymap_args] at hm)

theorem mark_mem_typedList {a : List PyVal} {kw : List (String × PyVal)}
    (h : ¬ kw.isEmpty) :
    KeyElem.mark ∈ baseElems a kw ++ a.map (fun v => KeyElem.ty (pyType v)) ++
      (if kw.isEmpty then [] else kw.map (fun p => KeyElem.ty (pyType p.2))) := by
  apply List.mem_append_left
  apply List.mem_append_left
  simp only [baseElems]
  rw [if_neg h]
  simp

theorem make_key_inj {a1 a2 : List PyVal} {kw1 kw2 : List (String × PyVal)}
    {typed : Bool} (h : make_key a1 kw1 typed = make_key a2 kw2 typed) :
    a1 = a2 ∧ kw1 = kw2 := by
  cases typed with
  | true =>
      rw [make_key_typed_eq, make_key_typed_eq] at h
      injection h with hl _
      by_cases h1 : kw1.isEmpty <;> by_cases h2 : kw2.isEmpty
      · simp only [baseElems, if_pos h1, if_pos h2, List.append_nil] at hl
        rw [tymap_args a1, tymap_args a2] at hl
        refine ⟨(valTySplit hl).1, ?_⟩
        rw [List.isEmpty_iff] at h1 h2
        rw [h1, h2]
      · exfalso
        have hm2 := mark_mem_typedList (a := a2) h2
        rw [← hl] at hm2
        exact mark_not_mem_typedList h1 hm2
      · exfalso
        have hm1 := mark_mem_typedList (a := a1) h1
        rw [hl] at hm1
        exact mark_not_mem_typedList h2 hm1
      · simp only [baseElems, if_neg h1, if_neg h2, List.append_assoc,
          List.cons_append] at hl
        obtain ⟨ha, hr⟩ := splitMark hl (mark_not_mem_map_val a1)
          (mark_not_mem_map_val a2)
        refine ⟨map_val_inj ha, ?_⟩
        rw [tymap_args a1, tymap_args a2, tymap_kwds kw1, tymap_kwds kw2] at hr
        rw [← List.map_append, ← List.map_append] at hr
        exact kwdFlat_inj (valTySplit hr).1
  | false =>
      by_cases h1 : kw1.isEmpty <;> by_cases h2 : kw2.isEmpty
      · rw [List.isEmpty_iff] at h1 h2
        subst h1; subst h2
        refine ⟨?_, rfl⟩
        cases hres : make_key a1 [] false with
        | fast v =>
            rw [hres] at h
            obtain ⟨ha1, _⟩ := make_key_nokw_fast hres
            obtain ⟨ha2, _⟩ := make_key_nokw_fast h.symm
            rw [ha1, ha2]
        | seq l hv =>
            rw [hres] at h
            obtain ⟨hl1, _⟩ := make_key_nokw_seq hres
            obtain ⟨hl2, _⟩ := make_key_nokw_seq h.symm
            exact map_val_inj (hl1.symm.trans hl2)
      · exfalso
        rw [make_key_untyped_kw a2 kw2 (by simpa using h2)] at h
        rw [List.isEmpty_iff] at h1
        subst h1
        cases hres : make_key a1 [] false with
        | fast v => rw [hres] at h; cases h
        | seq l hv =>
            rw [hres] at h
            obtain ⟨hl1, _⟩ := make_key_nokw_seq hres
            injection h with hls _
            have hm : KeyElem.mark ∈ l := by
              rw [hls]
              simp only [baseElems]
              rw [if_neg h2]
              simp
            rw [hl1] at hm
            obtain ⟨_, _, he⟩ := List.mem_map.mp hm; cases he
      · exfalso
        rw [make_key_untyped_kw a1 kw1 (by simpa using h1)] at h
        rw [List.isEmpty_iff] at h2
        subst h2
        cases hres : make_key a2 [] false with
        | fast v => rw [hres] at h; cases h
        | seq l hv =>
            rw [hres] at h
            obtain ⟨hl2, _⟩ := make_key_nokw_seq hres
            injection h with hls _
            have hm : KeyElem.mark ∈ l := by
              rw [← hls]
              simp only [baseElems]
              rw [if_neg h1]
              simp
            rw [hl2] at hm
            obtain ⟨_, _, he⟩ := List.mem_map.mp hm; cases he
      · rw [make_key_untyped_kw a1 kw1 (by simpa using h1),
          make_key_untyped_kw a2 kw2 (by simpa using h2)] at h
        injection h with hls _
        exact baseElems_inj hls

section DictMore

variable {α β : Type} [DecidableEq α]

theorem dlookup_dinsert_self (c : List (α × β)) (x : α) (y : β) :
    dlookup (dinsert c x y) x = some y := by
  induction c with
  | nil => simp [dinsert, dlookup]
  | cons p t ih =>
      obtain ⟨k, v⟩ := p
      by_cases hx : x = k
      · simp [dinsert, dlookup, hx]
      · simp [dinsert, dlookup, hx, ih]

theorem dlookup_dinsert_ne (c : List (α × β)) (x x' : α) (y : β)
    (h : x' ≠ x) : dlookup (dinsert c x y) x' = dlookup c x' := by
  induction c with
  | nil => simp [dinsert, dlookup, h]
  | cons p t ih =>
      obtain ⟨k, v⟩ := p
      by_cases hx : x = k
      · subst hx
        simp [dinsert, dlookup, h]
      · by_cases hx' : x' = k
        · simp [dinsert, dlookup, hx, hx']
        · simp [dinsert, dlookup, hx, hx', ih]

theorem dinsert_map_fst_of_mem {c : List (α × β)} {x : α} (y : β)
    (h : x ∈ c.map Prod.fst) :
    (dinsert c x y).map Prod.fst = c.map Prod.fst := by
  induction c with
  | nil => simp at h
  | cons p t ih =>
      obtain ⟨k, v⟩ := p
      by_cases hx : x = k
      · simp [dinsert, hx]
      · have h' : x ∈ t.map Prod.fst := by
          rw [List.map_cons] at h
          rcases List.mem_cons.mp h with hc | hc
          · exact absurd hc hx
          · exact hc
        simp [dinsert, hx, ih h']

theorem dinsert_length_of_mem {c : List (α × β)} {x : α} (y : β)
    (h : x ∈ c.map Prod.fst) :
    (dinsert c x y).length = c.length := by
  have := congrArg List.length (dinsert_map_fst_of_mem y h)
  simpa using this

theorem countP_key_eq_one {c : List (α × β)} {x : α}
    (hnd : (c.map Prod.fst).Nodup) (hmem : x ∈ c.map Prod.fst) :
    c.countP (fun q => decide (q.1 = x)) = 1 := by
  induction c with
  | nil => simp at hmem
  | cons p t ih =>
      obtain ⟨k, v⟩ := p
      rw [List.map_cons, List.nodup_cons] at hnd
      rw [List.countP_cons]
      by_cases hx : k = x
      · subst hx
        have hzero : t.countP (fun q => decide (q.1 = k)) = 0 := by
          rw [List.countP_eq_zero]
          intro q hq
          simp only [decide_eq_true_eq]
          intro he
          have hqm : q.1 ∈ List.map Prod.fst t :=
            List.mem_map_of_mem Prod.fst hq
          rw [he] at hqm
          exact hnd.1 hqm
        simp [hzero]
      · have h' : x ∈ t.map Prod.fst := by
          rcases List.mem_cons.mp hmem with hc | hc
          · exact absurd hc.symm hx
          · exact hc
        rw [ih hnd.2 h']
        have hne : ¬ ((k, v).1 = x) := by simpa using hx
        simp [hne]

end DictMore



instance instDecidableRingRep (s : LRU) (l : List Nat) :
    Decidable (RingRep s l) := by
  unfold RingRep
  infer_instance

/-- The post-await block of the bounded wrapper as seen by its caller: the
wrapper returns its own computed result (source line 197) next to the state
left by lines 163-196. -/
def resumeReturn (s : LRU) (k : Key) (v : PyVal) : PyVal × LRU :=
  (v, resumePhase s k v)

/-- The last micro state of the evict-and-reuse trace is exactly the state
the post-await block leaves when it takes the eviction branch. -/
theorem evictStates_last (s : LRU) (k : Key) (v : PyVal)
    (habs : dlookup s.cache k = none) (hfull : s.full = true) :
    (evictStates s k v).getD 5 (initLRU 0) = resumePhase s k v := by
  simp [evictStates, resumePhase, habs, hfull]

/-- Claim C2: when a bounded-LRU miss resumes and finds its key already
present (inserted by a racing call during the suspension), the wrapper
changes nothing: it does not insert, does not overwrite the racing entry,
returns its own freshly computed value, and the index keeps exactly one
entry for the key. -/
theorem claim_C2 (s : LRU) (k : Key) (v : PyVal) (i : Nat)
    (hrace : dlookup s.cache k = some i) (hinv : Inv s) :
    resumeReturn s k v = (v, s) ∧
    (resumePhase s k v).cache = s.cache ∧
    cache_info (resumePhase s k v) = cache_info s ∧
    s.cache.countP (fun q => decide (q.1 = k)) = 1 := by
  have hs : resumePhase s k v = s := by
    simp [resumePhase, hrace]
  obtain ⟨⟨l, hring⟩, _, _, _⟩ := hinv
  have hmem : k ∈ s.cache.map Prod.fst :=
    List.mem_map_of_mem Prod.fst (mem_of_dlookup_eq_some hrace)
  exact ⟨by rw [resumeReturn, hs], by rw [hs], by rw [hs],
    countP_key_eq_one hring.2.2.2.2.2.1 hmem⟩

/-- Claim C3: every atomic slice of work (hit promotion, miss counting, the
post-await insertion logic, cache_clear) preserves the structural invariant;
in the resulting state the ring traversal from root visits exactly currsize
links before returning to root, and a link is on the ring exactly when the
index holds an entry for it. -/
theorem claim_C3 (s : LRU) (op : Op) (h : Inv s) :
    Inv (step s op) ∧
    (ringTraverse (step s op)).length = (step s op).cache.length ∧
    (∀ i, i ∈ ringTraverse (step s op) ↔
      ∃ k, (k, i) ∈ (step s op).cache) := by
  have h2 := inv_step s op h
  obtain ⟨⟨l, hring⟩, _, _, _⟩ := h2
  have htrav : ringTraverse (step s op) = l := ringTraverse_eq hring
  refine ⟨inv_step s op h, ?_, ?_⟩
  · rw [htrav, ← hring.2.2.2.2.1.length_eq]
    simp
  · intro i
    rw [htrav]
    constructor
    · intro hi
      have : i ∈ (step s op).cache.map Prod.snd :=
        hring.2.2.2.2.1.symm.subset hi
      obtain ⟨q, hq, hq2⟩ := List.mem_map.mp this
      refine ⟨q.1, ?_⟩
      rw [← hq2]
      simpa using hq
    · rintro ⟨k, hk⟩
      exact hring.2.2.2.2.1.subset (by
        simpa using List.mem_map_of_mem Prod.snd hk)

/-- Claim C4: with positive maxsize N, after any schedule of call slices and
clears starting from a fresh cache, the reported current size never exceeds
N, and the full flag is set exactly when the size has reached N (after which
new-key insertions reuse the oldest slot rather than grow the cache). -/
theorem claim_C4 (N : Nat) (hN : 0 < N) (ops : List Op) :
    (cache_info (run (initLRU N) ops)).currsize ≤ N ∧
    ((run (initLRU N) ops).full = true ↔
      (run (initLRU N) ops).cache.length = N) := by
  have hinv := inv_run (initLRU N) ops (initLRU_inv N hN)
  obtain ⟨_, hlen, hfull, _⟩ := hinv
  have hms : (run (initLRU N) ops).maxsize = N := by
    rw [run_maxsize]
    rfl
  rw [hms] at hlen hfull
  refine ⟨?_, ?_⟩
  · simpa [cache_info] using hlen
  · rw [hfull]
    simp only [decide_eq_true_eq]
    omega

/-- Claim C8: on every strategy, a failing computation happens after the miss
was already counted; the failure propagates unchanged and the state differs
from the pre-call state only in the miss counter (no entry is inserted). -/
theorem claim_C8 (sB : LRU) (sU : UState) (sZ : ZState) (kB kU : Key)
    (e : String) (hB : dlookup sB.cache kB = none)
    (hU : dlookup sU.cache kU = none) :
    callB sB kB (Except.error e) =
      (Except.error e, { sB with misses := sB.misses + 1 }) ∧
    callU sU kU (Except.error e) =
      (Except.error e, { sU with misses := sU.misses + 1 }) ∧
    call0 sZ (Except.error e) =
      (Except.error e, { sZ with misses := sZ.misses + 1 }) := by
  refine ⟨?_, ?_, rfl⟩
  · simp [callB, accessPhase, hB]
  · simp [callU, accessU, hU]

/-- Claim C9: cache_clear fully resets the cache: the statistics snapshot
reports zero hits, zero misses and zero current size, the index is empty,
the full flag is cleared, the root link points back at itself with no key
and no result so the ring traversal is empty, and any key misses on its
next access (with the miss counted against the fresh zero). -/
theorem claim_C9 (s : LRU) (k : Key) :
    cache_info (cache_clear s) = ⟨0, 0, some s.maxsize, 0⟩ ∧
    (cache_clear s).cache = [] ∧
    (cache_clear s).full = false ∧
    (cache_clear s).arena (cache_clear s).root = ⟨s.root, s.root, none, none⟩ ∧
    ringTraverse (cache_clear s) = [] ∧
    (accessPhase (cache_clear s) k).1 = none ∧
    ((accessPhase (cache_clear s) k).2).misses = 1 := by
  refine ⟨rfl, rfl, rfl, ?_, ?_, ?_, ?_⟩
  · simp [cache_clear, Function.update]
  · show traverseFrom _ _ _ = []
    have hnext : ((cache_clear s).arena (cache_clear s).root).next
        = (cache_clear s).root := by
      simp [cache_clear, Function.update]
    rw [hnext]
    cases h : (cache_clear s).alen with
    | zero => rfl
    | succ n => simp [traverseFrom]
  · simp [accessPhase, cache_clear, dlookup]
  · simp [accessPhase, cache_clear, dlookup]

/-- Claim C10: the unbounded wrapper stores its own computed result without
re-checking the key's absence when it resumes: a racing entry for the same
key is overwritten (last writer wins), the cache still holds exactly one
entry for the key, and all other keys are untouched. -/
theorem claim_C10 (s : UState) (k : Key) (v w : PyVal)
    (hrace : dlookup s.cache k = some w)
    (hnd : (s.cache.map Prod.fst).Nodup) :
    dlookup (resumeU s k v).cache k = some v ∧
    (resumeU s k v).cache.length = s.cache.length ∧
    (resumeU s k v).cache.countP (fun q => decide (q.1 = k)) = 1 ∧
    (∀ k', k' ≠ k → dlookup (resumeU s k v).cache k' = dlookup s.cache k') := by
  have hmem : k ∈ s.cache.map Prod.fst :=
    List.mem_map_of_mem Prod.fst (mem_of_dlookup_eq_some hrace)
  refine ⟨?_, ?_, ?_, ?_⟩
  · exact dlookup_dinsert_self s.cache k v
  · exact dinsert_length_of_mem v hmem
  · show ((dinsert s.cache k v).countP (fun q => decide (q.1 = k))) = 1
    have hfst := dinsert_map_fst_of_mem (c := s.cache) (x := k) v hmem
    exact countP_key_eq_one (by rw [hfst]; exact hnd) (by rw [hfst]; exact hmem)
  · intro k' hk'
    exact dlookup_dinsert_ne s.cache k k' v hk'

/-- Claim C6: two calls canonicalize to equal keys exactly when their
positional argument lists and their keyword name-value lists agree in value
and order (in type-sensitive mode the appended type tags then agree as
well); in particular supplying the same named arguments in a different
order yields a distinct key. -/
theorem claim_C6 (a1 a2 : List PyVal) (kw1 kw2 : List (String × PyVal))
    (typed : Bool) :
    (make_key a1 kw1 typed = make_key a2 kw2 typed ↔ a1 = a2 ∧ kw1 = kw2) ∧
    (kw1 ≠ kw2 → make_key a1 kw1 typed ≠ make_key a2 kw2 typed) := by
  constructor
  · constructor
    · exact make_key_inj
    · rintro ⟨rfl, rfl⟩
      rfl
  · intro hne he
    exact hne (make_key_inj he).2

/-- Claim C7: make_key returns the bare argument exactly when type-sensitive
mode is off, no named arguments are present, and the single positional
argument has a fast type (int or str); in every other case it returns the
flat element sequence wrapped with the hash computed once at construction,
and hashing the wrapper only reads that stored value. -/
theorem claim_C7 (args : List PyVal) (kwds : List (String × PyVal))
    (typed : Bool) (v : PyVal) :
    (make_key args kwds typed = Key.fast v ↔
      typed = false ∧ kwds = [] ∧ args = [v] ∧
        pyType v ∈ DEFAULT_FAST_TYPES) ∧
    (∀ l hv, make_key args kwds typed = Key.seq l hv → hv = hashElems l) ∧
    (∀ l hv, keyHash (Key.seq l hv) = hv) := by
  refine ⟨⟨?_, ?_⟩, ?_, fun l hv => rfl⟩
  · intro h
    cases typed with
    | true =>
        rw [make_key_typed_eq] at h
        cases h
    | false =>
        by_cases hkw : kwds.isEmpty
        · rw [List.isEmpty_iff] at hkw
          subst hkw
          obtain ⟨ha, hf⟩ := make_key_nokw_fast h
          exact ⟨rfl, rfl, ha, hf⟩
        · rw [make_key_untyped_kw args kwds hkw] at h
          cases h
  · rintro ⟨rfl, rfl, rfl, hf⟩
    simp [make_key, hf]
  · intro l hv h
    cases typed with
    | true =>
        rw [make_key_typed_eq] at h
        injection h with h1 h2
        rw [← h2, h1]
    | false =>
        by_cases hkw : kwds.isEmpty
        · rw [List.isEmpty_iff] at hkw
          subst hkw
          exact (make_key_nokw_seq h).2
        · rw [make_key_untyped_kw args kwds hkw] at h
          injection h with h1 h2
          rw [← h2, h1]



/-- Claim C1, counterexample to the stated Scenario A: on the embedded code
the call sequence Call(1), Call(2), Call(1), Call(3), Call(2), Call(1) with
maxsize 2 does NOT produce the claimed outcome list miss, miss, hit, miss,
miss, hit: the fifth call evicts key 1 (the least recently used after 3 was
inserted), so the sixth call misses. -/
theorem claim_C1_counterexample :
    ¬ (callsTrace (initLRU 2) scenarioA =
      [false, false, true, false, false, true]) := by decide

/-- Claim C1 (amended): with maxsize N, inserting N+1 distinct keys in order
k0..kN by race-free calls makes every call a miss, evicts k0, and leaves
k1..kN resident: the next access of k0 misses while accesses of k1..kN hit.
In Scenario A the actual outcomes are miss, miss, hit, miss (evicting key 2,
the least recently used after the promotion of key 1), miss (evicting key
1), miss. -/
theorem claim_C1 (N : Nat) (hN : 0 < N) (k0 kN : Key) (mid : List Key)
    (f : Key → PyVal) (hlen : mid.length + 1 = N)
    (hnd : (k0 :: (mid ++ [kN])).Nodup) :
    ((accessPhase (runCalls (initLRU N)
        ((k0 :: (mid ++ [kN])).map (fun k => (k, f k)))) k0).1 = none ∧
     (∀ k' ∈ mid ++ [kN],
       ((accessPhase (runCalls (initLRU N)
         ((k0 :: (mid ++ [kN])).map (fun k => (k, f k)))) k').1).isSome
           = true)) ∧
    (callsTrace (initLRU 2) scenarioA =
        [false, false, true, false, false, false] ∧
     dlookup (runCalls (initLRU 2) (scenarioA.take 4)).cache (mkIntKey 2)
        = none ∧
     dlookup (runCalls (initLRU 2) (scenarioA.take 5)).cache (mkIntKey 1)
        = none) := by
  obtain ⟨hA, hB⟩ := lru_fill_evicts N hN k0 kN mid f hlen hnd
  refine ⟨⟨accessPhase_fst_none hA, ?_⟩, by decide, by decide, by decide⟩
  intro k' hk'
  rw [accessPhase_fst_isSome]
  exact hB k' hk'

theorem claim_C1_witness :
    (0 < 1 ∧ ([] : List Key).length + 1 = 1 ∧
      (mkIntKey 1 :: (([] : List Key) ++ [mkIntKey 2])).Nodup) ∧
    callsTrace (initLRU 2) scenarioA =
      [false, false, true, false, false, false] :=
  ⟨⟨by decide, by decide, by decide⟩,
    (claim_C1 1 (by decide) (mkIntKey 1) (mkIntKey 2) []
      (fun _ => PyVal.vint 0) (by decide) (by decide)).2.1⟩

/-- Claim C5 (refuted by the code, which contradicts its own comment at
source lines 175-179): in the evict-and-reuse branch the index's
bookkeeping is NOT completed before the evicted result loses its last
cache-held reference.  Concretely, with maxsize 1 holding key 1 and a
resuming miss inserting key 2: right after source line 182 (micro state 3)
no arena slot references the evicted result any more, yet the index still
lacks the new key 2 and still maps the evicted key 1 to the now keyless
sentinel, so cleanup triggered by that release observes an inconsistent
cache.  The final micro state coincides with the post-await block's
result. -/
theorem claim_C5 :
    (valueRefs ((evictStates (runCalls (initLRU 1)
        [(mkIntKey 1, PyVal.vint 101)]) (mkIntKey 2)
        (PyVal.vint 102)).getD 3 (initLRU 0)) (PyVal.vint 101) = 0 ∧
     dlookup ((evictStates (runCalls (initLRU 1)
        [(mkIntKey 1, PyVal.vint 101)]) (mkIntKey 2)
        (PyVal.vint 102)).getD 3 (initLRU 0)).cache (mkIntKey 2) = none ∧
     (dlookup ((evictStates (runCalls (initLRU 1)
        [(mkIntKey 1, PyVal.vint 101)]) (mkIntKey 2)
        (PyVal.vint 102)).getD 3 (initLRU 0)).cache
          (mkIntKey 1)).isSome = true) ∧
    (evictStates (runCalls (initLRU 1) [(mkIntKey 1, PyVal.vint 101)])
        (mkIntKey 2) (PyVal.vint 102)).getD 5 (initLRU 0) =
      resumePhase (runCalls (initLRU 1) [(mkIntKey 1, PyVal.vint 101)])
        (mkIntKey 2) (PyVal.vint 102) :=
  ⟨⟨by decide, by decide, by decide⟩,
    evictStates_last _ _ _ (by decide) (by decide)⟩

theorem claim_C2_witness :
    dlookup (doCall (initLRU 2) (mkIntKey 1) (PyVal.vint 5)).cache
      (mkIntKey 1) = some 1 ∧
    resumeReturn (doCall (initLRU 2) (mkIntKey 1) (PyVal.vint 5))
      (mkIntKey 1) (PyVal.vint 9) =
      (PyVal.vint 9, doCall (initLRU 2) (mkIntKey 1) (PyVal.vint 5)) :=
  ⟨by decide,
    (claim_C2 (doCall (initLRU 2) (mkIntKey 1) (PyVal.vint 5)) (mkIntKey 1)
      (PyVal.vint 9) 1 (by decide)
      ⟨⟨[1], by decide⟩, by decide, by decide, by decide⟩).1⟩

theorem claim_C3_witness :
    Inv (step (initLRU 1) (Op.access (mkIntKey 1))) :=
  (claim_C3 (initLRU 1) (Op.access (mkIntKey 1))
    ⟨⟨[], by decide⟩, by decide, by decide, by decide⟩).1

theorem claim_C4_witness :
    0 < 2 ∧ (cache_info (run (initLRU 2) [Op.access (mkIntKey 1),
      Op.resume (mkIntKey 1) (PyVal.vint 5)])).currsize ≤ 2 :=
  ⟨by decide, (claim_C4 2 (by decide) [Op.access (mkIntKey 1),
    Op.resume (mkIntKey 1) (PyVal.vint 5)]).1⟩

theorem claim_C6_witness :
    make_key [] [("x", PyVal.vint 1), ("y", PyVal.vint 2)] false ≠
      make_key [] [("y", PyVal.vint 2), ("x", PyVal.vint 1)] false :=
  (claim_C6 [] [] [("x", PyVal.vint 1), ("y", PyVal.vint 2)]
    [("y", PyVal.vint 2), ("x", PyVal.vint 1)] false).2 (by decide)

theorem claim_C7_witness :
    make_key [PyVal.vint 3] [] false = Key.fast (PyVal.vint 3) :=
  (claim_C7 [PyVal.vint 3] [] false (PyVal.vint 3)).1.mpr (by decide)

theorem claim_C8_witness :
    callB (initLRU 1) (mkIntKey 1) (Except.error "boom") =
      (Except.error "boom", { initLRU 1 with misses := (initLRU 1).misses + 1 }) :=
  (claim_C8 (initLRU 1) ⟨[], 0, 0⟩ ⟨0, 0⟩ (mkIntKey 1) (mkIntKey 1) "boom"
    (by decide) (by decide)).1

theorem claim_C10_witness :
    dlookup (resumeU ⟨[(mkIntKey 1, PyVal.vint 5)], 0, 0⟩ (mkIntKey 1)
      (PyVal.vint 7)).cache (mkIntKey 1) = some (PyVal.vint 7) :=
  (claim_C10 ⟨[(mkIntKey 1, PyVal.vint 5)], 0, 0⟩ (mkIntKey 1)
    (PyVal.vint 7) (PyVal.vint 5) (by decide) (by decide)).1

end AsyncioCache
